import Mathlib

/-!
# Verification of the kontext-engine indexing and search core

A shallow embedding, in Lean 4, of the parts of the kontext-engine code base
(TypeScript) that the specification's claims are about:

* the vector utilities of the embedder module (`normalizeVector`,
  `cosineSimilarity`);
* the query classifier (`src/steering/classify.ts`);
* FTS query sanitization (`src/search/fts.ts`);
* rank fusion and re-ranking (`src/search/fusion.ts`);
* the dependency-graph BFS (`dependencyTrace` of the path-search module);
* the chunker (`src/indexer/chunker.ts`);
* database open / schema initialization (`src/storage/db.ts`) and the
  index-embedder gate of the init pipeline (`src/cli/commands/init.ts`).

Modelling conventions:

* JavaScript strings are modelled as `List Char`.
* JavaScript numbers used for arithmetic on scores and weights are modelled
  as `ℚ`; `Math.sqrt` is modelled by `Rat.sqrt` (the model agrees with IEEE
  square root on the single property the code relies on: the square root of
  a non-negative number is zero exactly when the number is zero).
* `Float32Array` vectors are modelled as `List ℚ`.
* SHA-256 content hashes are modelled by an abstract (but concrete and
  computable) stand-in function of the text; the claims only ever use the
  fact that a hash is recomputed from the text, never properties of SHA-256
  itself.
* JavaScript's stable `Array.prototype.sort` is modelled by a stable
  insertion sort on the same comparator.
-/

set_option maxRecDepth 16384

namespace Kontext

-- ═══════════════════════════════════════════════════════════════════════════
-- Shared character utilities
-- ═══════════════════════════════════════════════════════════════════════════

/-- Whitespace characters matched by the JavaScript `\s` class (ASCII part:
space, tab, newline, carriage return, vertical tab, form feed). -/
def isWsChar (c : Char) : Bool :=
  c = ' ' || c = '\t' || c = '\n' || c = '\x0d' || c = '\x0b' || c = '\x0c'

/-- Word characters matched by the JavaScript `\w` class: `[A-Za-z0-9_]`. -/
def isWordChar (c : Char) : Bool :=
  (('a' ≤ c && c ≤ 'z') || ('A' ≤ c && c ≤ 'Z') || ('0' ≤ c && c ≤ '9') || c = '_')

/-- Number of maximal non-whitespace runs in `l`, given whether the previous
character belonged to a word (`inWord`).  This is the length of
`text.split(/\s+/).filter(w => w.length > 0)` in the chunker. -/
def wordCountAux : List Char → Bool → Nat
  | [], _ => 0
  | c :: r, inWord =>
      if isWsChar c then wordCountAux r false
      else (if inWord then 0 else 1) + wordCountAux r true

/-- Count of whitespace-separated words of a text (chunker `estimateTokens`
intermediate). -/
def wordCount (l : List Char) : Nat := wordCountAux l false

/-- `estimateTokens` of `src/indexer/chunker.ts`: word count times 1.3,
rounded up.  `Math.ceil(w * 1.3)` is modelled exactly as `⌈13·w/10⌉`. -/
def estimateTokens (l : List Char) : Nat := (13 * wordCount l + 9) / 10

/-- Splitting a word-count at a whitespace separator: the count of
`a ++ ws :: b` is the count of `a` (with the incoming `inWord` flag) plus the
count of `b` started fresh. -/
theorem wordCountAux_append_ws (a b : List Char) (w : Char) (hw : isWsChar w = true) :
    ∀ inWord, wordCountAux (a ++ w :: b) inWord =
      wordCountAux a inWord + wordCountAux b false := by
  induction a with
  | nil => intro inWord; simp [wordCountAux, hw]
  | cons c r ih =>
      intro inWord
      by_cases hc : isWsChar c = true
      · simp [wordCountAux, hc, ih]
      · simp only [List.cons_append, wordCountAux, hc, Bool.false_eq_true, if_false,
          List.append_eq]
        rw [ih]
        omega

/-- Token estimates are subadditive across a newline join:
`estimateTokens (a ++ "\n" ++ b) ≤ estimateTokens a + estimateTokens b`. -/
theorem estimateTokens_join_le (a b : List Char) :
    estimateTokens (a ++ '\n' :: b) ≤ estimateTokens a + estimateTokens b := by
  unfold estimateTokens wordCount
  rw [wordCountAux_append_ws a b '\n' (by decide)]
  omega

-- ═══════════════════════════════════════════════════════════════════════════
-- Stable sort (model of JavaScript's stable `Array.prototype.sort`)
-- ═══════════════════════════════════════════════════════════════════════════

/-- Insert `x` into `l` before the first element `y` with `le x y`. -/
def insertBy (le : α → α → Bool) (x : α) : List α → List α
  | [] => [x]
  | y :: ys => if le x y then x :: y :: ys else y :: insertBy le x ys

/-- Stable insertion sort by the boolean relation `le`. -/
def sortBy (le : α → α → Bool) (l : List α) : List α :=
  l.foldr (insertBy le) []

theorem insertBy_perm (le : α → α → Bool) (x : α) (l : List α) :
    List.Perm (insertBy le x l) (x :: l) := by
  induction l with
  | nil => simp [insertBy]
  | cons y ys ih =>
      by_cases h : le x y = true
      · simp [insertBy, h]
      · simp only [insertBy, h, Bool.false_eq_true, if_false]
        exact (ih.cons y).trans (List.Perm.swap x y ys)

theorem sortBy_perm (le : α → α → Bool) (l : List α) :
    List.Perm (sortBy le l) l := by
  induction l with
  | nil => simp [sortBy]
  | cons x xs ih =>
      exact (insertBy_perm le x (sortBy le xs)).trans (ih.cons x)

theorem mem_sortBy (le : α → α → Bool) (l : List α) (x : α) :
    x ∈ sortBy le l ↔ x ∈ l := (sortBy_perm le l).mem_iff

/-- Sortedness (as `Pairwise`) of the output of `insertBy`, for a total `le`. -/
theorem insertBy_pairwise (le : α → α → Bool)
    (htot : ∀ a b, le a b = true ∨ le b a = true)
    (htr : ∀ a b c, le a b = true → le b c = true → le a c = true)
    (x : α) (l : List α) (hl : l.Pairwise (fun a b => le a b = true)) :
    (insertBy le x l).Pairwise (fun a b => le a b = true) := by
  induction l with
  | nil => simp [insertBy]
  | cons y ys ih =>
      rcases List.pairwise_cons.mp hl with ⟨hy, hys⟩
      by_cases h : le x y = true
      · rw [insertBy, if_pos h]
        refine List.pairwise_cons.mpr ⟨?_, hl⟩
        intro z hz
        rcases List.mem_cons.mp hz with rfl | hz
        · exact h
        · exact htr x y z h (hy _ hz)
      · rw [insertBy, if_neg h]
        refine List.pairwise_cons.mpr ⟨?_, ih hys⟩
        intro z hz
        rw [(insertBy_perm le x ys).mem_iff] at hz
        rcases List.mem_cons.mp hz with hzx | hz
        · rw [hzx]
          rcases htot x y with h' | h'
          · exact absurd h' h
          · exact h'
        · exact hy _ hz

theorem sortBy_pairwise (le : α → α → Bool)
    (htot : ∀ a b, le a b = true ∨ le b a = true)
    (htr : ∀ a b c, le a b = true → le b c = true → le a c = true)
    (l : List α) :
    (sortBy le l).Pairwise (fun a b => le a b = true) := by
  induction l with
  | nil => simp [sortBy]
  | cons x xs ih => exact insertBy_pairwise le htot htr x _ ih

-- ═══════════════════════════════════════════════════════════════════════════
-- C10 — vector utilities (embedder module)
-- ═══════════════════════════════════════════════════════════════════════════

/-- Sum of squares of the entries of a vector (the `sumSq` accumulator of
`normalizeVector`, and `normA`/`normB` of `cosineSimilarity`). -/
def sumSquares (v : List ℚ) : ℚ := (v.map (fun x => x * x)).sum

/-- `normalizeVector` of the embedder module: divide by the L2 norm, but
return the vector unchanged when the norm is zero. -/
def normalizeVector (v : List ℚ) : List ℚ :=
  let norm := Rat.sqrt (sumSquares v)
  if norm = 0 then v else v.map (fun x => x / norm)

/-- Dot product over paired entries (the loop of `cosineSimilarity`; the
JavaScript loop runs over the indices of `a`, which for the equal-length
vectors the engine produces is exactly a fold over `a.zip b`). -/
def dotProduct (a b : List ℚ) : ℚ := ((a.zip b).map (fun p => p.1 * p.2)).sum

/-- `cosineSimilarity` of the embedder module: returns `0` instead of
dividing when the denominator `sqrt(normA) * sqrt(normB)` is zero. -/
def cosineSimilarity (a b : List ℚ) : ℚ :=
  let normA := sumSquares a
  let normB := sumSquares b
  let denom := Rat.sqrt normA * Rat.sqrt normB
  if denom = 0 then 0 else dotProduct a b / denom

theorem sumSquares_nonneg (v : List ℚ) : 0 ≤ sumSquares v := by
  induction v with
  | nil => simp [sumSquares]
  | cons x xs ih =>
      simp only [sumSquares, List.map_cons, List.sum_cons]
      have := mul_self_nonneg x
      simp only [sumSquares] at ih
      linarith

/-- `Rat.sqrt 0 = 0`. -/
theorem ratSqrt_zero : Rat.sqrt 0 = 0 := by decide

/-- C10 — The vector utilities guard division by a zero norm: a vector whose
sum of squared entries is zero is returned unchanged by `normalizeVector`
(no division happens, hence no NaN entries), and `cosineSimilarity` returns
`0` whenever either same-length argument has zero norm. -/
theorem vector_utils_zero_norm_guard :
    (∀ v : List ℚ, sumSquares v = 0 → normalizeVector v = v) ∧
    (∀ a b : List ℚ, a.length = b.length →
      sumSquares a = 0 ∨ sumSquares b = 0 → cosineSimilarity a b = 0) := by
  constructor
  · intro v hv
    simp [normalizeVector, hv, ratSqrt_zero]
  · intro a b _ hab
    rcases hab with h | h <;>
      simp [cosineSimilarity, h, ratSqrt_zero]

/-- Witness for C10 at a concrete input: the all-zero 3-vector is returned
unchanged and its cosine similarity with any same-length vector is zero. -/
theorem vector_utils_zero_norm_guard_witness :
    normalizeVector [0, 0, 0] = [0, 0, 0] ∧
    cosineSimilarity [0, 0, 0] [1, 2, 3] = 0 := by
  refine ⟨vector_utils_zero_norm_guard.1 [0, 0, 0] (by norm_num [sumSquares]), ?_⟩
  exact vector_utils_zero_norm_guard.2 [0, 0, 0] [1, 2, 3] (by decide)
    (Or.inl (by norm_num [sumSquares]))

-- ═══════════════════════════════════════════════════════════════════════════
-- C7 — query classifier (src/steering/classify.ts)
-- ═══════════════════════════════════════════════════════════════════════════

/-- JavaScript `String.prototype.trim`: strip whitespace from both ends. -/
def trimWs (l : List Char) : List Char :=
  ((l.dropWhile isWsChar).reverse.dropWhile isWsChar).reverse

/-- Lowercase a string, character-wise (JavaScript `toLowerCase` on the
ASCII strings the engine handles). -/
def toLowerStr (l : List Char) : List Char := l.map Char.toLower

/-- Split a string at every occurrence of `sep` (JavaScript `split(sep)`). -/
def splitOnChar (sep : Char) : List Char → List (List Char)
  | [] => [[]]
  | c :: r =>
      let rest := splitOnChar sep r
      if c = sep then [] :: rest
      else
        match rest with
        | [] => [[c]]
        | h :: t => (c :: h) :: t

def isAsciiLower (c : Char) : Bool := 'a' ≤ c && c ≤ 'z'

def isAsciiUpper (c : Char) : Bool := 'A' ≤ c && c ≤ 'Z'

def isAsciiAlnum (c : Char) : Bool :=
  isAsciiLower c || isAsciiUpper c || ('0' ≤ c && c ≤ '9')

/-- `SYMBOL_CAMEL_RE`: `^[a-z][a-zA-Z0-9]*$`. -/
def matchesCamel : List Char → Bool
  | [] => false
  | c :: r => isAsciiLower c && r.all isAsciiAlnum

/-- `SYMBOL_PASCAL_RE`: `^[A-Z][a-zA-Z0-9]*$`. -/
def matchesPascal : List Char → Bool
  | [] => false
  | c :: r => isAsciiUpper c && r.all isAsciiAlnum

/-- `SYMBOL_SNAKE_RE`: `^[a-z]+(?:_[a-z]+)+$` — at least two nonempty
all-lowercase groups separated by single underscores. -/
def matchesSnake (l : List Char) : Bool :=
  let parts := splitOnChar '_' l
  decide (2 ≤ parts.length) && parts.all (fun p => !p.isEmpty && p.all isAsciiLower)

/-- `SYMBOL_UPPER_RE`: `^[A-Z]+(?:_[A-Z]+)*$` — one or more nonempty
all-uppercase groups separated by single underscores. -/
def matchesUpperSnake (l : List Char) : Bool :=
  let parts := splitOnChar '_' l
  parts.all (fun p => !p.isEmpty && p.all isAsciiUpper)

/-- `isSymbolQuery` of `classify.ts`. -/
def isSymbolQuery (q : List Char) : Bool :=
  matchesCamel q || matchesPascal q || matchesSnake q || matchesUpperSnake q

/-- The source-file extensions of `PATH_EXTENSION_RE` (matched
case-insensitively as a suffix preceded by a dot). -/
def pathExtensions : List (List Char) :=
  [ "ts".toList, "tsx".toList, "js".toList, "jsx".toList, "mjs".toList,
    "cjs".toList, "py".toList, "go".toList, "rs".toList, "java".toList,
    "kt".toList, "swift".toList, "rb".toList, "php".toList, "cs".toList,
    "cpp".toList, "c".toList, "h".toList, "hpp".toList, "json".toList,
    "yaml".toList, "yml".toList, "toml".toList, "md".toList, "sql".toList,
    "sh".toList, "bash".toList ]

/-- `isPathQuery` of `classify.ts`: contains `/` or ends in a known source
extension. -/
def isPathQuery (q : List Char) : Bool :=
  q.contains '/' ||
    pathExtensions.any (fun ext => ('.' :: ext).isSuffixOf (toLowerStr q))

/-- Helper for `wordsOf`: walk the characters, carrying the (reversed)
word currently being accumulated. -/
def wordsOfAux : List Char → Option (List Char) → List (List Char)
  | [], none => []
  | [], some w => [w.reverse]
  | c :: r, none =>
      if isWsChar c then wordsOfAux r none else wordsOfAux r (some [c])
  | c :: r, some w =>
      if isWsChar c then w.reverse :: wordsOfAux r none
      else wordsOfAux r (some (c :: w))

/-- Maximal non-whitespace runs of a string
(`lower.split(/\s+/).filter(w => w.length > 0)`). -/
def wordsOf (l : List Char) : List (List Char) := wordsOfAux l none

/-- The `QUESTION_WORDS` set of `classify.ts`. -/
def questionWords : List (List Char) :=
  [ "how".toList, "what".toList, "where".toList, "why".toList, "when".toList,
    "which".toList, "show".toList, "explain".toList, "find".toList,
    "list".toList ]

/-- The `STOP_WORDS` set of `classify.ts`. -/
def stopWords : List (List Char) :=
  [ "the".toList, "a".toList, "an".toList, "is".toList, "are".toList,
    "was".toList, "were".toList, "do".toList, "does".toList, "did".toList,
    "to".toList, "for".toList, "of".toList, "in".toList, "on".toList,
    "with".toList, "by".toList, "and".toList, "or".toList ]

/-- `isNaturalLanguageQuery` of `classify.ts`. -/
def isNaturalLanguageQuery (q : List Char) : Bool :=
  let ws := wordsOf (toLowerStr q)
  ws.any (fun w => questionWords.contains w) ||
    (decide (4 ≤ ws.length) && ws.any (fun w => stopWords.contains w))

/-- The four query kinds of the classifier. -/
inductive QueryKind where
  | symbol | path | natural_language | keyword
  deriving DecidableEq, Repr

/-- Per-strategy weight multipliers (`Record<StrategyName, number>`). -/
structure Multipliers where
  vector : ℚ
  fts : ℚ
  ast : ℚ
  path : ℚ
  dependency : ℚ
  deriving DecidableEq, Repr

/-- `defaultMultipliers()` of `classify.ts`. -/
def defaultMultipliers : Multipliers :=
  { vector := 1, fts := 1, ast := 1, path := 1, dependency := 1 }

structure QueryClassification where
  kind : QueryKind
  multipliers : Multipliers
  deriving DecidableEq, Repr

/-- `classifyQuery` of `classify.ts`: trim, then test path, symbol,
natural-language patterns in order, falling back to `keyword`. -/
def classifyQuery (query : List Char) : QueryClassification :=
  if isPathQuery (trimWs query) then
    { kind := .path, multipliers := { defaultMultipliers with path := 2, ast := 1/2 } }
  else if isSymbolQuery (trimWs query) then
    { kind := .symbol, multipliers := { defaultMultipliers with ast := 3/2, vector := 1/2 } }
  else if isNaturalLanguageQuery (trimWs query) then
    { kind := .natural_language,
      multipliers := { defaultMultipliers with vector := 3/2, path := 6/5, ast := 7/10 } }
  else
    { kind := .keyword, multipliers := defaultMultipliers }

/-- C7 — For every query: when `classifyQuery` returns kind `symbol` its
multipliers satisfy `ast > fts` and `ast > vector` (ast = 1.5, vector = 0.5,
others 1.0); when it returns `natural_language` they satisfy `vector > fts`
and `vector > ast` (vector = 1.5, path = 1.2, ast = 0.7, others 1.0); and
every multiplier returned for any query is positive. -/
theorem classifyQuery_multiplier_ordering (q : List Char) :
    ((classifyQuery q).kind = .symbol →
      (classifyQuery q).multipliers =
        { vector := 1/2, fts := 1, ast := 3/2, path := 1, dependency := 1 } ∧
      (classifyQuery q).multipliers.fts < (classifyQuery q).multipliers.ast ∧
      (classifyQuery q).multipliers.vector < (classifyQuery q).multipliers.ast) ∧
    ((classifyQuery q).kind = .natural_language →
      (classifyQuery q).multipliers =
        { vector := 3/2, fts := 1, ast := 7/10, path := 6/5, dependency := 1 } ∧
      (classifyQuery q).multipliers.fts < (classifyQuery q).multipliers.vector ∧
      (classifyQuery q).multipliers.ast < (classifyQuery q).multipliers.vector) ∧
    (0 < (classifyQuery q).multipliers.vector ∧
     0 < (classifyQuery q).multipliers.fts ∧
     0 < (classifyQuery q).multipliers.ast ∧
     0 < (classifyQuery q).multipliers.path ∧
     0 < (classifyQuery q).multipliers.dependency) := by
  unfold classifyQuery
  split_ifs <;>
    refine ⟨?_, ?_, ?_⟩ <;>
    simp_all [defaultMultipliers] <;>
    norm_num

/-- Witness for C7 at concrete queries: `"computeChanges"` is classified as a
symbol (ast dominates), `"how does the indexer work"` as natural language
(vector dominates). -/
theorem classifyQuery_multiplier_ordering_witness :
    ((classifyQuery "computeChanges".toList).multipliers.fts <
      (classifyQuery "computeChanges".toList).multipliers.ast) ∧
    ((classifyQuery "how does the indexer work".toList).multipliers.ast <
      (classifyQuery "how does the indexer work".toList).multipliers.vector) := by
  constructor
  · exact ((classifyQuery_multiplier_ordering "computeChanges".toList).1
      (by decide)).2.1
  · exact (((classifyQuery_multiplier_ordering
      "how does the indexer work".toList).2.1) (by decide)).2.2

-- ═══════════════════════════════════════════════════════════════════════════
-- C1 — database open and schema initialization (src/storage/db.ts)
-- ═══════════════════════════════════════════════════════════════════════════

/-- `SCHEMA_VERSION` of `src/storage/schema.ts`. -/
def SCHEMA_V : Nat := 1

/-- The on-disk state of an index database that matters to `createDatabase`:
the `meta.schema_version` row (absent on a fresh file) and the dimension the
`chunk_vectors` virtual table was created with (absent on a fresh file). -/
structure SqliteFile where
  schemaVersion : Option Nat
  vectorTableDim : Option Nat
  deriving DecidableEq, Repr

/-- `getMetaVersion`: the stored schema version, `0` when the meta table or
the row is missing. -/
def getMetaVersion (s : SqliteFile) : Nat := s.schemaVersion.getD 0

/-- `initializeSchema` of `src/storage/db.ts` (lines 528–556): if the stored
version is current, return with no change; otherwise run the schema DDL —
`CREATE VIRTUAL TABLE IF NOT EXISTS chunk_vectors USING vec0(embedding
float[dimensions])` keeps an existing vector table (and its dimension)
untouched — and record `schema_version`. -/
def initializeSchema (s : SqliteFile) (dimensions : Nat) : SqliteFile :=
  if SCHEMA_V ≤ getMetaVersion s then s
  else
    { schemaVersion := some SCHEMA_V,
      vectorTableDim := some (s.vectorTableDim.getD dimensions) }

/-- Errors an open could fail with. `dimensionMismatch` models the
`DimensionMismatch` failure the spec requires; the source has no code path
producing it. -/
inductive DbOpenError where
  | dimensionMismatch
  deriving DecidableEq, Repr

/-- `createDatabase` of `src/storage/db.ts` (lines 150–171): open the file,
set pragmas, load the vector extension, run `initializeSchema` — with no
validation of the requested dimension against the stored one, and no error
path for a mismatch. -/
def createDatabase (s : SqliteFile) (dimensions : Nat) :
    Except DbOpenError SqliteFile :=
  Except.ok (initializeSchema s dimensions)

/-- A store previously created with dimension 384: `schema_version` is
recorded and the vector table exists with 384-dimensional embeddings. -/
def existingStore384 : SqliteFile :=
  { schemaVersion := some 1, vectorTableDim := some 384 }

/-- C1 (code bug) — Re-opening an existing 384-dimensional index while
requesting 1024 dimensions succeeds silently: `createDatabase` returns `ok`
with the store unchanged (the vector table still 384-dimensional, `384 ≠
1024`), instead of failing with `DimensionMismatch` as the spec and the
repository's own `db.test.ts` ("throws when opening an index with mismatched
vector dimensions") require.  Moreover no open ever fails at all. -/
theorem createDatabase_ignores_dimension_mismatch :
    createDatabase existingStore384 1024 = Except.ok existingStore384 ∧
    existingStore384.vectorTableDim = some 384 ∧
    (384 : Nat) ≠ 1024 ∧
    ∀ (s : SqliteFile) (d : Nat), ∃ s', createDatabase s d = Except.ok s' := by
  refine ⟨rfl, rfl, by decide, ?_⟩
  intro s d
  exact ⟨initializeSchema s d, rfl⟩

-- ═══════════════════════════════════════════════════════════════════════════
-- C2 — index-embedder gate (src/cli/commands/init.ts, lines 132–151)
-- ═══════════════════════════════════════════════════════════════════════════

/-- The `(provider, model, dimensions)` tuple stored as
`meta.index_embedder` and declared by the caller's configuration
(`IndexEmbedderMetadata`). -/
structure EmbedderMeta where
  provider : List Char
  model : List Char
  dimensions : Nat
  deriving DecidableEq, Repr

/-- `isSameEmbedderConfig` of `init.ts`: component-wise equality of
provider, model and dimensions. -/
def isSameEmbedderConfig (a b : EmbedderMeta) : Bool :=
  a.provider = b.provider && a.model = b.model && a.dimensions = b.dimensions

/-- The store state the gate reads: the stored `index_embedder` metadata and
the file/chunk/vector counts.
Modelled from the spec: the accessors `db.getIndexEmbedder` /
`db.setIndexEmbedder` called by `runInit` are absent from the `db.ts` under
`src/` (only their callers and tests are present); per the spec they read
and write the `meta.index_embedder` key, modelled here as a field of the
store state. -/
structure GateStore where
  indexEmbedder : Option EmbedderMeta
  fileCount : Nat
  chunkCount : Nat
  vectorCount : Nat
  deriving DecidableEq, Repr

/-- The embedder-mismatch failure (`IndexError` "Index embedder mismatch
…" thrown by `runInit`; the spec's `EmbedderMismatch` kind). -/
inductive GateError where
  | embedderMismatch
  deriving DecidableEq, Repr

/-- The index-embedder gate of `runInit` (`init.ts` lines 132–151): if
metadata is stored and differs from the configured embedder, fail; if it is
absent and the index is empty, record the configured embedder; otherwise
proceed unchanged. -/
def embedderGate (s : GateStore) (cfg : EmbedderMeta) :
    Except GateError GateStore :=
  match s.indexEmbedder with
  | some existing =>
      if isSameEmbedderConfig existing cfg then Except.ok s
      else Except.error GateError.embedderMismatch
  | none =>
      if s.fileCount = 0 && s.chunkCount = 0 && s.vectorCount = 0 then
        Except.ok { s with indexEmbedder := some cfg }
      else Except.ok s

/-- C2 — At index time: when stored `index_embedder` metadata is present and
differs from the configured `(provider, model, dimensions)` tuple, the gate
fails with the embedder-mismatch error; when it is absent and the index is
empty, the configured embedder is recorded, and a later open with a
different configuration is then rejected. -/
theorem embedderGate_enforces_stored_metadata (s : GateStore) (cfg : EmbedderMeta) :
    (∀ existing, s.indexEmbedder = some existing →
      isSameEmbedderConfig existing cfg = false →
      embedderGate s cfg = Except.error GateError.embedderMismatch) ∧
    (s.indexEmbedder = none →
      s.fileCount = 0 → s.chunkCount = 0 → s.vectorCount = 0 →
      ∃ s', embedderGate s cfg = Except.ok s' ∧
        s'.indexEmbedder = some cfg ∧
        ∀ cfg2, isSameEmbedderConfig cfg cfg2 = false →
          embedderGate s' cfg2 = Except.error GateError.embedderMismatch) := by
  constructor
  · intro existing hsome hdiff
    simp [embedderGate, hsome, hdiff]
  · intro hnone hf hc hv
    refine ⟨{ s with indexEmbedder := some cfg }, ?_, rfl, ?_⟩
    · simp [embedderGate, hnone, hf, hc, hv]
    · intro cfg2 hdiff
      simp [embedderGate, hdiff]

/-- Witness for C2 at concrete inputs: a store holding local/MiniLM/384
metadata rejects a voyage/voyage-code-3/1024 configuration, and an empty
unset store records the configured embedder. -/
theorem embedderGate_enforces_stored_metadata_witness :
    embedderGate
      { indexEmbedder := some ⟨"local".toList, "MiniLM".toList, 384⟩,
        fileCount := 3, chunkCount := 10, vectorCount := 10 }
      ⟨"voyage".toList, "voyage-code-3".toList, 1024⟩ =
      Except.error GateError.embedderMismatch ∧
    ∃ s', embedderGate
      { indexEmbedder := none, fileCount := 0, chunkCount := 0, vectorCount := 0 }
      ⟨"local".toList, "MiniLM".toList, 384⟩ = Except.ok s' ∧
      s'.indexEmbedder = some ⟨"local".toList, "MiniLM".toList, 384⟩ := by
  constructor
  · exact (embedderGate_enforces_stored_metadata _ _).1
      ⟨"local".toList, "MiniLM".toList, 384⟩ rfl (by decide)
  · rcases (embedderGate_enforces_stored_metadata
      { indexEmbedder := none, fileCount := 0, chunkCount := 0, vectorCount := 0 }
      ⟨"local".toList, "MiniLM".toList, 384⟩).2 rfl rfl rfl rfl with ⟨s', h1, h2, _⟩
    exact ⟨s', h1, h2⟩

-- ═══════════════════════════════════════════════════════════════════════════
-- C3 / C9 — dependency-graph BFS (`dependencyTrace` of the path-search
-- module)
-- ═══════════════════════════════════════════════════════════════════════════

/-- Chunk metadata joined with its file, as returned by
`db.getChunksByIds`. -/
structure ChunkData where
  filePath : List Char
  lineStart : Nat
  lineEnd : Nat
  name : Option (List Char)
  type : List Char
  text : List Char
  language : List Char
  deriving DecidableEq, Repr

/-- The dependency-relevant view of the store: outgoing edges
(`getDependencies(id).map(targetChunkId)`), incoming edges
(`getReverseDependencies(id).map(sourceChunkId)`), and per-id chunk rows
(`getChunksByIds`). -/
structure DepDb where
  outEdges : Nat → List Nat
  inEdges : Nat → List Nat
  chunkMeta : Nat → Option ChunkData

inductive Direction where
  | imports | importedBy
  deriving DecidableEq, Repr

/-- `getNeighbors` of the path-search module. -/
def getNeighbors (db : DepDb) (id : Nat) : Direction → List Nat
  | .imports => db.outEdges id
  | .importedBy => db.inEdges id

/-- One `SearchResult` row produced by `dependencyTrace`. -/
structure TraceResult where
  chunkId : Nat
  filePath : List Char
  lineStart : Nat
  lineEnd : Nat
  name : Option (List Char)
  type : List Char
  text : List Char
  score : ℚ
  language : List Char
  deriving DecidableEq, Repr

instance : Inhabited TraceResult := ⟨⟨0, [], 0, 0, none, [], [], 0, []⟩⟩

/-- Build a `TraceResult` from a chunk row at a given score. -/
def mkTraceResult (id : Nat) (m : ChunkData) (score : ℚ) : TraceResult :=
  ⟨id, m.filePath, m.lineStart, m.lineEnd, m.name, m.type, m.text, score,
    m.language⟩

/-- The inner loop of the frontier expansion: for each neighbor, skip it if
already visited, otherwise mark it visited and push it onto the next
frontier.  The accumulator is `(nextFrontier, visited)`. -/
def addNeighbors : List Nat → List Nat × List Nat → List Nat × List Nat
  | [], acc => acc
  | n :: rest, acc =>
      if n ∈ acc.2 then addNeighbors rest acc
      else addNeighbors rest (acc.1 ++ [n], acc.2 ++ [n])

/-- The outer loop of the frontier expansion over the current frontier. -/
def expandFrontier (db : DepDb) (dir : Direction) :
    List Nat → List Nat × List Nat → List Nat × List Nat
  | [], acc => acc
  | c :: rest, acc =>
      expandFrontier db dir rest (addNeighbors (getNeighbors db c dir) acc)

/-- The depth loop of `dependencyTrace`: `fuel` is the number of remaining
iterations (`depth − d`), `d` the current 0-based depth level.  Each level
assigns the score `DEPTH_SCORE_BASE − d · DEPTH_SCORE_DECAY = 1 − d·(1/5)`
(the source applies no clamping at zero), fetches metadata for the freshly
discovered ids, and stops early when the next frontier is empty. -/
def traceLoop (db : DepDb) (dir : Direction) :
    Nat → List Nat → List Nat → Nat → List TraceResult
  | 0, _, _, _ => []
  | fuel + 1, frontier, visited, d =>
      let expanded := expandFrontier db dir frontier ([], visited)
      if expanded.1.isEmpty then []
      else
        let score : ℚ := 1 - (d : ℚ) * (1/5)
        (expanded.1.filterMap
          (fun n => (db.chunkMeta n).map (fun m => mkTraceResult n m score))) ++
          traceLoop db dir fuel expanded.1 expanded.2 (d + 1)

/-- `dependencyTrace` of the path-search module: BFS from `chunkId`
following the requested edge direction, with the start pre-seeded into the
visited set. -/
def dependencyTrace (db : DepDb) (chunkId : Nat) (dir : Direction)
    (depth : Nat) : List TraceResult :=
  traceLoop db dir depth [chunkId] [chunkId] 0

-- ── BFS invariants ──────────────────────────────────────────────────────────

theorem addNeighbors_inv (visited0 : List Nat) :
    ∀ (ns : List Nat) (acc : List Nat × List Nat),
      acc.2 = visited0 ++ acc.1 → acc.2.Nodup →
      (addNeighbors ns acc).2 = visited0 ++ (addNeighbors ns acc).1 ∧
        (addNeighbors ns acc).2.Nodup := by
  intro ns
  induction ns with
  | nil => intro acc h1 h2; exact ⟨h1, h2⟩
  | cons n rest ih =>
      intro acc h1 h2
      by_cases hn : n ∈ acc.2
      · rw [addNeighbors, if_pos hn]
        exact ih acc h1 h2
      · rw [addNeighbors, if_neg hn]
        refine ih _ ?_ ?_
        · simp only
          rw [h1, List.append_assoc]
        · simp only
          rw [List.nodup_append]
          refine ⟨h2, List.nodup_singleton n, ?_⟩
          intro a ha hb
          rw [List.mem_singleton] at hb
          subst hb
          exact hn ha

theorem expandFrontier_inv (db : DepDb) (dir : Direction) (visited0 : List Nat) :
    ∀ (frontier : List Nat) (acc : List Nat × List Nat),
      acc.2 = visited0 ++ acc.1 → acc.2.Nodup →
      (expandFrontier db dir frontier acc).2 =
          visited0 ++ (expandFrontier db dir frontier acc).1 ∧
        (expandFrontier db dir frontier acc).2.Nodup := by
  intro frontier
  induction frontier with
  | nil => intro acc h1 h2; exact ⟨h1, h2⟩
  | cons c rest ih =>
      intro acc h1 h2
      rw [expandFrontier]
      rcases addNeighbors_inv visited0 (getNeighbors db c dir) acc h1 h2 with ⟨h1', h2'⟩
      exact ih _ h1' h2'

/-- The chunk ids of the per-level result rows form a sublist of the level's
frontier. -/
theorem level_ids_sublist (db : DepDb) (s : ℚ) :
    ∀ l : List Nat,
      ((l.filterMap
        (fun n => (db.chunkMeta n).map (fun m => mkTraceResult n m s))).map
          TraceResult.chunkId).Sublist l := by
  intro l
  induction l with
  | nil => simp
  | cons n rest ih =>
      cases hm : db.chunkMeta n with
      | none => simpa [List.filterMap_cons, hm] using ih.cons n
      | some m => simpa [List.filterMap_cons, hm, mkTraceResult] using ih.cons₂ n

theorem mem_level_results (db : DepDb) (s : ℚ) (l : List Nat) (r : TraceResult)
    (hr : r ∈ l.filterMap
      (fun n => (db.chunkMeta n).map (fun m => mkTraceResult n m s))) :
    r.score = s ∧ r.chunkId ∈ l := by
  rw [List.mem_filterMap] at hr
  rcases hr with ⟨n, hn, hfn⟩
  rcases Option.map_eq_some'.mp hfn with ⟨m, _, hm⟩
  subst hm
  exact ⟨rfl, by simpa [mkTraceResult] using hn⟩

/-- Master invariant of the depth loop: over any visited set without
duplicates, the emitted rows carry ids outside `visited`, pairwise-distinct
ids, scores of the form `1 − k·(1/5)` for levels `d ≤ k < d + fuel`, and the
scores never increase along the output. -/
theorem traceLoop_inv (db : DepDb) (dir : Direction) :
    ∀ (fuel : Nat) (frontier visited : List Nat) (d : Nat),
      visited.Nodup →
      (∀ r ∈ traceLoop db dir fuel frontier visited d, r.chunkId ∉ visited) ∧
      ((traceLoop db dir fuel frontier visited d).map TraceResult.chunkId).Nodup ∧
      (∀ r ∈ traceLoop db dir fuel frontier visited d,
        ∃ k, d ≤ k ∧ k < d + fuel ∧ r.score = 1 - (k : ℚ) * (1/5)) ∧
      (traceLoop db dir fuel frontier visited d).Pairwise
        (fun a b => b.score ≤ a.score) := by
  intro fuel
  induction fuel with
  | zero => intro frontier visited d _; simp [traceLoop]
  | succ fuel ih =>
      intro frontier visited d hvis
      rw [traceLoop]
      rcases expandFrontier_inv db dir visited frontier ([], visited)
        (by simp) hvis with ⟨hsplit, hnodup⟩
      by_cases hempty : (expandFrontier db dir frontier ([], visited)).1.isEmpty
      · simp [hempty]
      · simp only [hempty, Bool.false_eq_true, if_false]
        set nf := (expandFrontier db dir frontier ([], visited)).1 with hnf
        set vis' := (expandFrontier db dir frontier ([], visited)).2 with hvis'
        have hvis'nodup : vis'.Nodup := hnodup
        have hnfdisj : ∀ x ∈ nf, x ∉ visited := by
          intro x hx hxv
          have : vis'.Nodup := hnodup
          rw [hsplit, List.nodup_append] at this
          exact this.2.2 hxv hx
        have hnfnodup : nf.Nodup := by
          have := hnodup
          rw [hsplit, List.nodup_append] at this
          exact this.2.1
        set s : ℚ := 1 - (d : ℚ) * (1/5) with hs
        set grp := nf.filterMap
          (fun n => (db.chunkMeta n).map (fun m => mkTraceResult n m s)) with hgrp
        have hgrpids : ∀ r ∈ grp, r.score = s ∧ r.chunkId ∈ nf := by
          intro r hr; exact mem_level_results db s nf r hr
        rcases ih nf vis' (d + 1) hvis'nodup with ⟨ih1, ih2, ih3, ih4⟩
        set rest := traceLoop db dir fuel nf vis' (d + 1) with hrest
        have hrest_not_nf : ∀ r ∈ rest, r.chunkId ∉ nf := by
          intro r hr hmem
          exact ih1 r hr (by rw [hsplit]; exact List.mem_append_right _ hmem)
        refine ⟨?_, ?_, ?_, ?_⟩
        · intro r hr
          rcases List.mem_append.mp hr with h | h
          · exact hnfdisj _ (hgrpids r h).2
          · intro hmem
            exact ih1 r h (by rw [hsplit]; exact List.mem_append_left _ hmem)
        · rw [List.map_append, List.nodup_append]
          refine ⟨(level_ids_sublist db s nf).nodup hnfnodup, ih2, ?_⟩
          intro a ha hb
          rw [List.mem_map] at ha hb
          rcases ha with ⟨r1, hr1, hr1a⟩
          rcases hb with ⟨r2, hr2, hr2a⟩
          subst hr1a
          exact hrest_not_nf r2 hr2 (hr2a ▸ (hgrpids r1 hr1).2)
        · intro r hr
          rcases List.mem_append.mp hr with h | h
          · exact ⟨d, le_refl d, by omega, (hgrpids r h).1⟩
          · rcases ih3 r h with ⟨k, hk1, hk2, hk3⟩
            exact ⟨k, by omega, by omega, hk3⟩
        · rw [List.pairwise_append]
          refine ⟨?_, ih4, ?_⟩
          · refine List.pairwise_of_forall_mem_list ?_
            intro a ha b hb
            rw [(hgrpids a ha).1, (hgrpids b hb).1]
          · intro a ha b hb
            rw [(hgrpids a ha).1]
            rcases ih3 b hb with ⟨k, hk1, _, hk3⟩
            rw [hk3, hs]
            have : (d : ℚ) + 1 ≤ (k : ℚ) := by
              have : (d + 1 : ℕ) ≤ k := hk1
              exact_mod_cast this
            linarith

/-- C9 — `dependencyTrace` never includes the starting chunk in its results
(the start is pre-seeded into the visited set), even on cyclic graphs, and
each chunk id appears at most once in the returned list. -/
theorem dependencyTrace_excludes_start_and_nodup (db : DepDb) (chunkId : Nat)
    (dir : Direction) (depth : Nat) :
    (∀ r ∈ dependencyTrace db chunkId dir depth, r.chunkId ≠ chunkId) ∧
    ((dependencyTrace db chunkId dir depth).map TraceResult.chunkId).Nodup := by
  rcases traceLoop_inv db dir depth [chunkId] [chunkId] 0
    (List.nodup_singleton chunkId) with ⟨h1, h2, _, _⟩
  refine ⟨?_, h2⟩
  intro r hr heq
  exact h1 r hr (heq ▸ List.mem_singleton_self chunkId)

/-- A cyclic three-node dependency graph `1 → 2 → 3 → 1` used as the
concrete witness input for C9. -/
def cycleDb : DepDb :=
  { outEdges := fun n => if n = 1 then [2] else if n = 2 then [3] else
      if n = 3 then [1] else [],
    inEdges := fun _ => [],
    chunkMeta := fun n =>
      if n ≤ 3 then some ⟨[], n, n, none, ['f'], [], []⟩ else none }

/-- Witness for C9 on the concrete cyclic graph: tracing from chunk 1 with
ample depth returns ids `[2, 3]` — the start never reappears even though it
is reachable from itself. -/
theorem dependencyTrace_excludes_start_and_nodup_witness :
    (dependencyTrace cycleDb 1 Direction.imports 5).map TraceResult.chunkId =
      [2, 3] ∧
    1 ∉ (dependencyTrace cycleDb 1 Direction.imports 5).map
      TraceResult.chunkId := by
  refine ⟨by decide, ?_⟩
  intro hmem
  rcases List.mem_map.mp hmem with ⟨r, hr, hrid⟩
  exact (dependencyTrace_excludes_start_and_nodup cycleDb 1
    Direction.imports 5).1 r hr hrid

/-- A linear eight-node chain `1 → 2 → ⋯ → 8` used as the concrete
counterexample input for C3. -/
def chainDb : DepDb :=
  { outEdges := fun n => if 1 ≤ n ∧ n ≤ 7 then [n + 1] else [],
    inEdges := fun _ => [],
    chunkMeta := fun n =>
      if 1 ≤ n ∧ n ≤ 8 then some ⟨[], n, n, none, ['f'], [], []⟩ else none }

/-- Counterexample for C3 as stated: the source computes
`1.0 − 0.2·d` with no `max(0, ·)` clamp, so on a chain of length 7 with
depth bound 7 the level-6 result carries the negative score `−1/5`. -/
theorem dependencyTrace_negative_score_counterexample :
    (dependencyTrace chainDb 1 Direction.imports 7).map TraceResult.score =
      [1, 4/5, 3/5, 2/5, 1/5, 0, -(1/5)] ∧
    ((dependencyTrace chainDb 1 Direction.imports 7).getLastD default).score
      < 0 := by
  constructor
  · norm_num [dependencyTrace, traceLoop, expandFrontier, addNeighbors,
      getNeighbors, chainDb, mkTraceResult, List.filterMap_cons]
  · norm_num [dependencyTrace, traceLoop, expandFrontier, addNeighbors,
      getNeighbors, chainDb, mkTraceResult, List.filterMap_cons]

/-- C3 (amended) — `dependencyTrace` performs a BFS that never revisits a
chunk and returns results in BFS discovery order (scores never increase
along the list); every returned chunk discovered at 0-based level `d`
carries the score `1.0 − 0.2·d` — without the `max(0, ·)` clamp the claim
states — so scores are non-negative exactly when the depth bound keeps
levels at `d ≤ 5`; for depth bounds up to 6 no returned score is
negative. -/
theorem dependencyTrace_bfs_scores (db : DepDb) (chunkId : Nat)
    (dir : Direction) (depth : Nat) :
    ((dependencyTrace db chunkId dir depth).map TraceResult.chunkId).Nodup ∧
    (dependencyTrace db chunkId dir depth).Pairwise
      (fun a b => b.score ≤ a.score) ∧
    (∀ r ∈ dependencyTrace db chunkId dir depth,
      ∃ k, k < depth ∧ r.score = 1 - (k : ℚ) * (1/5)) ∧
    (depth ≤ 6 → ∀ r ∈ dependencyTrace db chunkId dir depth, 0 ≤ r.score) := by
  rcases traceLoop_inv db dir depth [chunkId] [chunkId] 0
    (List.nodup_singleton chunkId) with ⟨_, h2, h3, h4⟩
  refine ⟨h2, h4, ?_, ?_⟩
  · intro r hr
    rcases h3 r hr with ⟨k, _, hk2, hk3⟩
    exact ⟨k, by omega, hk3⟩
  · intro hdepth r hr
    rcases h3 r hr with ⟨k, _, hk2, hk3⟩
    rw [hk3]
    have hk5 : (k : ℚ) ≤ 5 := by exact_mod_cast (by omega : k ≤ 5)
    linarith

theorem headD_mem {α : Type _} [Inhabited α] (l : List α) (h : l ≠ []) :
    l.headD default ∈ l := by
  cases l with
  | nil => exact absurd rfl h
  | cons a t => simp [List.headD]

/-- Witness for C3 (amended) on the concrete chain with depth bound 3:
scores are `[1, 4/5, 3/5]`, and the depth-≤-6 conjunct of the theorem
yields a non-negative score for the first returned result. -/
theorem dependencyTrace_bfs_scores_witness :
    (dependencyTrace chainDb 1 Direction.imports 3).map TraceResult.score =
      [1, 4/5, 3/5] ∧
    0 ≤ ((dependencyTrace chainDb 1 Direction.imports 3).headD default).score := by
  have hs : (dependencyTrace chainDb 1 Direction.imports 3).map
      TraceResult.score = [1, 4/5, 3/5] := by
    norm_num [dependencyTrace, traceLoop, expandFrontier, addNeighbors,
      getNeighbors, chainDb, mkTraceResult, List.filterMap_cons]
  have hne : dependencyTrace chainDb 1 Direction.imports 3 ≠ [] := by
    intro h
    rw [h] at hs
    simp at hs
  exact ⟨hs, (dependencyTrace_bfs_scores chainDb 1 Direction.imports 3).2.2.2
    (by norm_num) _ (headD_mem _ hne)⟩

-- ═══════════════════════════════════════════════════════════════════════════
-- C5 — rank fusion and re-ranking (src/search/fusion.ts)
-- ═══════════════════════════════════════════════════════════════════════════

/-- `SearchResult` of `src/search/types.ts`. -/
structure SearchResult where
  chunkId : Nat
  filePath : List Char
  lineStart : Nat
  lineEnd : Nat
  name : Option (List Char)
  type : List Char
  text : List Char
  score : ℚ
  language : List Char
  exported : Option Bool
  deriving DecidableEq, Repr

instance : Inhabited SearchResult := ⟨⟨0, [], 0, 0, none, [], [], 0, [], none⟩⟩

inductive StrategyName where
  | vector | fts | ast | path | dependency
  deriving DecidableEq, Repr

/-- `StrategyResult` of `fusion.ts`: one strategy's results with its
weight. -/
structure StrategyResult where
  strategy : StrategyName
  weight : ℚ
  results : List SearchResult
  deriving Repr

/-- Add `s` to the accumulated score of `id` in the insertion-ordered score
map (`scoreMap.set(id, existing + s)`). -/
def bumpScore : List (Nat × ℚ) → Nat → ℚ → List (Nat × ℚ)
  | [], id, s => [(id, s)]
  | (k, v) :: rest, id, s =>
      if k = id then (k, v + s) :: rest else (k, v) :: bumpScore rest id s

/-- Keep the first occurrence's metadata
(`if (!resultMap.has(id)) resultMap.set(id, r)`). -/
def stashResult : List (Nat × SearchResult) → Nat → SearchResult →
    List (Nat × SearchResult)
  | [], id, r => [(id, r)]
  | (k, v) :: rest, id, r =>
      if k = id then (k, v) :: rest else (k, v) :: stashResult rest id r

/-- Look an id up in an insertion-ordered association list (`Map.get`). -/
def lookupId : List (Nat × α) → Nat → Option α
  | [], _ => none
  | (k, v) :: rest, id => if k = id then some v else lookupId rest id

/-- Accumulate one strategy's results: at 0-based `rank`, the contribution is
`weight · 1/(K + rank + 1)` with `K = 60`. -/
def accumStrategy (weight : ℚ) :
    List SearchResult → Nat → List (Nat × ℚ) × List (Nat × SearchResult) →
      List (Nat × ℚ) × List (Nat × SearchResult)
  | [], _, maps => maps
  | r :: rest, rank, maps =>
      accumStrategy weight rest (rank + 1)
        (bumpScore maps.1 r.chunkId (weight * (1 / ((60 : ℚ) + rank + 1))),
         stashResult maps.2 r.chunkId r)

/-- Accumulate all strategies. -/
def accumAll : List StrategyResult →
    List (Nat × ℚ) × List (Nat × SearchResult) →
      List (Nat × ℚ) × List (Nat × SearchResult)
  | [], maps => maps
  | sr :: rest, maps => accumAll rest (accumStrategy sr.weight sr.results 0 maps)

/-- Descending-by-score comparator used for both entry sorting and result
re-sorting (JavaScript `(a, b) => b.score - a.score`, a stable sort). -/
def scoreDescEntry (a b : Nat × ℚ) : Bool := decide (b.2 ≤ a.2)

def scoreDescResult (a b : SearchResult) : Bool := decide (b.score ≤ a.score)

/-- The sorted accumulated `[chunkId, rawScore]` entries of `fusionMerge`
(`[...scoreMap.entries()].sort((a, b) => b[1] - a[1])`). -/
def fusionEntries (strategyResults : List StrategyResult) : List (Nat × ℚ) :=
  sortBy scoreDescEntry (accumAll strategyResults ([], [])).1

/-- The top raw accumulated score (`entries[0][1]`). -/
def fusionMaxScore (strategyResults : List StrategyResult) : ℚ :=
  ((fusionEntries strategyResults).headD (0, 0)).2

/-- `fusionMerge` of `fusion.ts`: accumulate RRF scores per chunk id, sort
descending, truncate to `limit`, and normalize so the top raw score maps to
1 (or keep zeros when the top raw score is not positive). -/
def fusionMerge (strategyResults : List StrategyResult) (limit : Nat) :
    List SearchResult :=
  if (accumAll strategyResults ([], [])).1.isEmpty then []
  else
    ((fusionEntries strategyResults).take limit).filterMap fun e =>
      (lookupId (accumAll strategyResults ([], [])).2 e.1).map fun base =>
        { base with
          score :=
            if 0 < fusionMaxScore strategyResults then
              e.2 / fusionMaxScore strategyResults
            else 0 }

/-- `extractPathBoostTerms` of `fusion.ts`: split on whitespace, drop tokens
shorter than two characters. -/
def extractPathBoostTerms (query : List Char) : List (List Char) :=
  (wordsOf query).filter fun t => 2 ≤ t.length

/-- Strip the last-dot extension of a file name
(`fileName.replace(/\.[^.]+$/, "")`). -/
def dropExt (s : List Char) : List Char :=
  let rev := s.reverse
  let pre := rev.takeWhile (fun c => c ≠ '.')
  if pre.isEmpty then s
  else
    match rev.drop pre.length with
    | [] => s
    | _ :: rest => rest.reverse

/-- Does `l` start with `p`? -/
def startsWithL : List Char → List Char → Bool
  | [], _ => true
  | _ :: _, [] => false
  | c :: cs, d :: ds => c = d && startsWithL cs ds

/-- Does `l` end with `s`? -/
def endsWithL (s l : List Char) : Bool := startsWithL s.reverse l.reverse

/-- Is `s` a contiguous substring of `l` (JavaScript `includes`)? -/
def isSubstringL (s : List Char) : List Char → Bool
  | [] => s.isEmpty
  | c :: r => startsWithL s (c :: r) || isSubstringL s r

/-- Directory-segment exact match raises the running maximum to 1.5. -/
def boostDir (dirSegs : List (List Char)) (termLower : List Char) (acc : ℚ) : ℚ :=
  if dirSegs.contains termLower then max acc (3/2) else acc

/-- Filename (without extension) exact match raises the running maximum to
1.4. -/
def boostFile (fnNoExt termLower : List Char) (acc : ℚ) : ℚ :=
  if fnNoExt = termLower then max acc (7/5) else acc

/-- Substring match raises the running maximum to 1.2 (only tried while the
maximum is still below 1.2). -/
def boostSub (pathLower termLower : List Char) (acc : ℚ) : ℚ :=
  if acc < 6/5 ∧ isSubstringL termLower pathLower then max acc (6/5) else acc

/-- One term's update of the running boost maximum in
`getPathBoostFactor`. -/
def boostStep (pathLower : List Char) (dirSegs : List (List Char))
    (fnNoExt : List Char) (maxBoost : ℚ) (term : List Char) : ℚ :=
  boostSub pathLower (toLowerStr term)
    (boostFile fnNoExt (toLowerStr term)
      (boostDir dirSegs (toLowerStr term) maxBoost))

/-- `getPathBoostFactor` of `fusion.ts`: the highest boost factor over the
boost-term set, starting at 1. -/
def getPathBoostFactor (filePath : List Char) (terms : List (List Char)) : ℚ :=
  terms.foldl
    (boostStep (toLowerStr filePath)
      ((splitOnChar '/' (toLowerStr filePath)).dropLast)
      (dropExt ((splitOnChar '/' (toLowerStr filePath)).getLastD [])))
    1

/-- `applyPathBoost` of `fusion.ts`. -/
def applyPathBoost (results : List SearchResult) (terms : List (List Char)) :
    List SearchResult :=
  if terms.isEmpty then results
  else results.map fun r =>
    { r with score := r.score * getPathBoostFactor r.filePath terms }

/-- Maximum of the scores of a result list, floored at 0
(`Math.max(...scores, 0)`). -/
def maxScoreOrZero (l : List SearchResult) : ℚ :=
  l.foldl (fun a r => max a r.score) 0

/-- `isTestFilePath` of `fusion.ts`: the lower-cased slash-normalized path
has a `tests`/`__tests__` segment, or its file name matches
`*.test.*` / `*.spec.*` with a JS/TS extension. -/
def isTestFilePath (filePath : List Char) : Bool :=
  let normalized := (toLowerStr filePath).map fun c => if c = '\\' then '/' else c
  let segs := splitOnChar '/' normalized
  segs.contains "tests".toList || segs.contains "__tests__".toList ||
    (["test".toList, "spec".toList].any fun w =>
      (["js".toList, "jsx".toList, "ts".toList, "tsx".toList, "cjs".toList,
        "cjsx".toList, "cts".toList, "ctsx".toList, "mjs".toList,
        "mjsx".toList, "mts".toList, "mtsx".toList].any fun ext =>
        endsWithL ('.' :: w ++ '.' :: ext) normalized))

/-- `isSmallSnippet` of `fusion.ts`: line count (floored at 1) is at most
3. -/
def isSmallSnippet (r : SearchResult) : Bool :=
  decide (max 1 ((r.lineEnd : ℤ) - r.lineStart + 1) ≤ 3)

/-- `isPublicApiSymbol` of `fusion.ts`: the exported flag is set, or the
text (after leading whitespace, lower-cased) begins with `export `. -/
def isPublicApiSymbol (r : SearchResult) : Bool :=
  r.exported = some true ||
    startsWithL "export ".toList (toLowerStr (r.text.dropWhile isWsChar))

/-- `applyImportDeprioritization` of `fusion.ts`. -/
def applyImportDeprio (results : List SearchResult) : List SearchResult :=
  if results.all (fun r => r.type = "import".toList) then results
  else if maxScoreOrZero (results.filter fun r => r.type ≠ "import".toList) = 0
  then results
  else results.map fun r =>
    if r.type = "import".toList then { r with score := r.score * (1/2) } else r

/-- `applyTestFileDeprioritization` of `fusion.ts`. -/
def applyTestFileDeprio (results : List SearchResult) : List SearchResult :=
  if results.all (fun r => isTestFilePath r.filePath) then results
  else if maxScoreOrZero (results.filter fun r => ¬ isTestFilePath r.filePath) = 0
  then results
  else results.map fun r =>
    if isTestFilePath r.filePath then { r with score := r.score * (13/20) }
    else r

/-- `applySmallSnippetDeprioritization` of `fusion.ts`. -/
def applySmallSnippetDeprio (results : List SearchResult) : List SearchResult :=
  if results.all (fun r => isSmallSnippet r) then results
  else if maxScoreOrZero (results.filter fun r => ¬ isSmallSnippet r) = 0
  then results
  else results.map fun r =>
    if isSmallSnippet r then { r with score := r.score * (3/4) } else r

/-- `applyPublicApiBoost` of `fusion.ts` (factor 1.12 = 28/25). -/
def applyPublicApiBoost (results : List SearchResult) : List SearchResult :=
  results.map fun r =>
    if isPublicApiSymbol r then { r with score := r.score * (28/25) } else r

/-- `getFileDiversityFactor` of `fusion.ts`. -/
def diversityFactor (fileOccurrence : Nat) : ℚ :=
  if fileOccurrence ≤ 1 then 1
  else if fileOccurrence = 2 then 9/10
  else if fileOccurrence = 3 then 4/5
  else 7/10

/-- Update the per-file occurrence counter, returning the new count for
`fp`. -/
def bumpSeen : List (List Char × Nat) → List Char →
    Nat × List (List Char × Nat)
  | [], fp => (1, [(fp, 1)])
  | (k, v) :: rest, fp =>
      if k = fp then (v + 1, (k, v + 1) :: rest)
      else
        let r := bumpSeen rest fp
        (r.1, (k, v) :: r.2)

/-- The ranked walk of `applyFileDiversityDiminishingReturns`. -/
def divWalk : List SearchResult → List (List Char × Nat) → List SearchResult
  | [], _ => []
  | r :: rest, seen =>
      let b := bumpSeen seen r.filePath
      { r with score := r.score * diversityFactor b.1 } :: divWalk rest b.2

/-- `applyFileDiversityDiminishingReturns` of `fusion.ts`: re-sort by
current score and damp the n-th result of each file. -/
def applyFileDiversity (results : List SearchResult) : List SearchResult :=
  if results.length ≤ 1 then results
  else divWalk (sortBy scoreDescResult results) []

/-- The maximum score of a result list
(`Math.max(...results.map(r => r.score))`, over a nonempty list). -/
def maxScoreOf : List SearchResult → ℚ
  | [] => 0
  | r :: rest => rest.foldl (fun a x => max a x.score) r.score

/-- `renormalize` of `fusion.ts`: divide every score by the maximum so the
top is 1; keep the list unchanged when it is empty or the maximum is 0. -/
def renormalize (results : List SearchResult) : List SearchResult :=
  if results.isEmpty then results
  else if maxScoreOf results = 0 then results
  else results.map fun r => { r with score := r.score / maxScoreOf results }

/-- Steps 1–6 of the re-ranked fusion pipeline: path boost, the three
deprioritizations, public-API boost, file-diversity diminishing returns. -/
def boostPipeline (results : List SearchResult) (terms : List (List Char)) :
    List SearchResult :=
  applyFileDiversity
    (applyPublicApiBoost
      (applySmallSnippetDeprio
        (applyTestFileDeprio
          (applyImportDeprio
            (applyPathBoost results terms)))))

/-- `fusionMergeWithPathBoost` of `fusion.ts`: RRF with 3× over-fetch, then
path boost, import/test-file/small-snippet deprioritization, public-API
boost, file-diversity diminishing returns, a final descending sort,
truncation to `limit`, and re-normalization to [0, 1]. -/
def fusionMergeWithPathBoost (strategyResults : List StrategyResult)
    (limit : Nat) (pathBoostTerms : List (List Char)) : List SearchResult :=
  if (fusionMerge strategyResults (limit * 3)).isEmpty then []
  else
    renormalize
      ((sortBy scoreDescResult
        (boostPipeline (fusionMerge strategyResults (limit * 3))
          pathBoostTerms)).take limit)

-- ── Accumulation invariants ─────────────────────────────────────────────────

theorem lookupId_stash_self (id : Nat) (r : SearchResult) :
    ∀ rm : List (Nat × SearchResult),
      ∃ v, lookupId (stashResult rm id r) id = some v := by
  intro rm
  induction rm with
  | nil => exact ⟨r, by simp [stashResult, lookupId]⟩
  | cons p rest ih =>
      obtain ⟨k, w⟩ := p
      by_cases h : k = id
      · exact ⟨w, by simp [stashResult, lookupId, h]⟩
      · rcases ih with ⟨v', hv'⟩
        exact ⟨v', by simp [stashResult, lookupId, h, hv']⟩

theorem lookupId_stash_preserve (key id : Nat) (r v : SearchResult) :
    ∀ rm : List (Nat × SearchResult), lookupId rm key = some v →
      lookupId (stashResult rm id r) key = some v := by
  intro rm
  induction rm with
  | nil => intro h; simp [lookupId] at h
  | cons p rest ih =>
      obtain ⟨k, w⟩ := p
      intro h
      by_cases hk : k = id
      · simpa [stashResult, hk] using h
      · by_cases hkey : k = key
        · subst hkey
          have h' : w = v := by simpa [lookupId] using h
          subst h'
          simp [stashResult, hk, lookupId]
        · simp only [lookupId, hkey, if_false] at h
          simp [stashResult, hk, lookupId, hkey, ih h]

theorem bumpScore_pos (id : Nat) (s : ℚ) (hs : 0 < s) :
    ∀ sm : List (Nat × ℚ), (∀ e ∈ sm, 0 < e.2) →
      ∀ e ∈ bumpScore sm id s, 0 < e.2 := by
  intro sm
  induction sm with
  | nil =>
      intro _ e he
      simp only [bumpScore, List.mem_singleton] at he
      subst he
      exact hs
  | cons p rest ih =>
      obtain ⟨k, w⟩ := p
      intro hsm e he
      by_cases h : k = id
      · rw [show bumpScore ((k, w) :: rest) id s = (k, w + s) :: rest by
          simp [bumpScore, h]] at he
        rcases List.mem_cons.mp he with he | he
        · subst he
          exact add_pos (hsm (k, w) (List.mem_cons_self _ rest)) hs
        · exact hsm e (List.mem_cons_of_mem _ he)
      · rw [show bumpScore ((k, w) :: rest) id s =
            (k, w) :: bumpScore rest id s by simp [bumpScore, h]] at he
        rcases List.mem_cons.mp he with he | he
        · subst he
          exact hsm (k, w) (List.mem_cons_self _ rest)
        · exact ih (fun x hx => hsm x (List.mem_cons_of_mem _ hx)) e he

theorem bumpScore_keys (id : Nat) (s : ℚ) :
    ∀ sm : List (Nat × ℚ),
      ∀ e ∈ bumpScore sm id s, e.1 = id ∨ ∃ e' ∈ sm, e'.1 = e.1 := by
  intro sm
  induction sm with
  | nil =>
      intro e he
      simp only [bumpScore, List.mem_singleton] at he
      subst he
      exact Or.inl rfl
  | cons p rest ih =>
      obtain ⟨k, w⟩ := p
      intro e he
      by_cases h : k = id
      · rw [show bumpScore ((k, w) :: rest) id s = (k, w + s) :: rest by
          simp [bumpScore, h]] at he
        rcases List.mem_cons.mp he with he | he
        · subst he
          exact Or.inl h
        · exact Or.inr ⟨e, List.mem_cons_of_mem _ he, rfl⟩
      · rw [show bumpScore ((k, w) :: rest) id s =
            (k, w) :: bumpScore rest id s by simp [bumpScore, h]] at he
        rcases List.mem_cons.mp he with he | he
        · subst he
          exact Or.inr ⟨(k, w), List.mem_cons_self _ rest, rfl⟩
        · rcases ih e he with h' | ⟨e', he', h'⟩
          · exact Or.inl h'
          · exact Or.inr ⟨e', List.mem_cons_of_mem _ he', h'⟩

/-- Invariant of the accumulation maps: all raw scores are positive and
every scored chunk id has a stashed representative result. -/
def MapsInv (maps : List (Nat × ℚ) × List (Nat × SearchResult)) : Prop :=
  (∀ e ∈ maps.1, 0 < e.2) ∧ (∀ e ∈ maps.1, ∃ v, lookupId maps.2 e.1 = some v)

theorem mapsInv_step (maps : List (Nat × ℚ) × List (Nat × SearchResult))
    (hinv : MapsInv maps) (id : Nat) (r : SearchResult) (s : ℚ) (hs : 0 < s) :
    MapsInv (bumpScore maps.1 id s, stashResult maps.2 id r) := by
  refine ⟨bumpScore_pos id s hs maps.1 hinv.1, ?_⟩
  intro e he
  rcases bumpScore_keys id s maps.1 e he with h | ⟨e', he', h'⟩
  · rw [h]
    exact lookupId_stash_self id r maps.2
  · rcases hinv.2 e' he' with ⟨v, hv⟩
    rw [← h']
    exact ⟨v, lookupId_stash_preserve e'.1 id r v maps.2 hv⟩

theorem accumStrategy_inv (w : ℚ) (hw : 0 < w) :
    ∀ (results : List SearchResult) (rank : Nat)
      (maps : List (Nat × ℚ) × List (Nat × SearchResult)),
      MapsInv maps → MapsInv (accumStrategy w results rank maps) := by
  intro results
  induction results with
  | nil => intro rank maps h; exact h
  | cons r rest ih =>
      intro rank maps h
      rw [accumStrategy]
      refine ih (rank + 1) _ (mapsInv_step maps h r.chunkId r _ ?_)
      have h61 : (0 : ℚ) < (60 : ℚ) + rank + 1 := by positivity
      positivity

theorem accumAll_inv (srs : List StrategyResult)
    (hw : ∀ sr ∈ srs, 0 < sr.weight) :
    ∀ maps, MapsInv maps → MapsInv (accumAll srs maps) := by
  induction srs with
  | nil => intro maps h; exact h
  | cons sr rest ih =>
      intro maps h
      rw [accumAll]
      exact ih (fun x hx => hw x (List.mem_cons_of_mem sr hx)) _
        (accumStrategy_inv sr.weight (hw sr (List.mem_cons_self sr rest))
          sr.results 0 maps h)

-- ── Sorting facts for the two comparators ───────────────────────────────────

theorem scoreDescEntry_total (a b : Nat × ℚ) :
    scoreDescEntry a b = true ∨ scoreDescEntry b a = true := by
  simp only [scoreDescEntry, decide_eq_true_eq]
  exact le_total b.2 a.2

theorem scoreDescEntry_trans (a b c : Nat × ℚ) (h1 : scoreDescEntry a b = true)
    (h2 : scoreDescEntry b c = true) : scoreDescEntry a c = true := by
  simp only [scoreDescEntry, decide_eq_true_eq] at *
  exact le_trans h2 h1

theorem scoreDescResult_total (a b : SearchResult) :
    scoreDescResult a b = true ∨ scoreDescResult b a = true := by
  simp only [scoreDescResult, decide_eq_true_eq]
  exact le_total b.score a.score

theorem scoreDescResult_trans (a b c : SearchResult)
    (h1 : scoreDescResult a b = true) (h2 : scoreDescResult b c = true) :
    scoreDescResult a c = true := by
  simp only [scoreDescResult, decide_eq_true_eq] at *
  exact le_trans h2 h1

theorem headD_ge_of_pairwise {α : Type _} (f : α → ℚ) (d : α) :
    ∀ (l : List α), l.Pairwise (fun a b => f b ≤ f a) →
      ∀ e ∈ l, f e ≤ f (l.headD d) := by
  intro l hl e he
  cases l with
  | nil => exact absurd he (List.not_mem_nil e)
  | cons h t =>
      rcases List.mem_cons.mp he with he | he
      · subst he; exact le_refl _
      · exact (List.pairwise_cons.mp hl).1 e he

-- ── fusionMerge score facts ─────────────────────────────────────────────────

theorem fusionEntries_pairwise (srs : List StrategyResult) :
    (fusionEntries srs).Pairwise (fun a b => b.2 ≤ a.2) := by
  have := sortBy_pairwise scoreDescEntry scoreDescEntry_total
    scoreDescEntry_trans (accumAll srs ([], [])).1
  exact this.imp (fun h => by simpa [scoreDescEntry] using h)

theorem fusionMerge_mem (srs : List StrategyResult) (limit : Nat)
    (hw : ∀ sr ∈ srs, 0 < sr.weight) :
    ∀ r ∈ fusionMerge srs limit, 0 < r.score ∧ r.score ≤ 1 := by
  intro r hr
  unfold fusionMerge at hr
  by_cases hemp : (accumAll srs ([], [])).1.isEmpty
  · simp [hemp] at hr
  · simp only [hemp, Bool.false_eq_true, if_false] at hr
    rw [List.mem_filterMap] at hr
    rcases hr with ⟨e, he, hfe⟩
    rcases Option.map_eq_some'.mp hfe with ⟨base, _, hrdef⟩
    subst hrdef
    have hinv := accumAll_inv srs hw ([], []) ⟨by simp, by simp⟩
    have heent : e ∈ fusionEntries srs :=
      List.take_subset limit (fusionEntries srs) he
    have hemem : e ∈ (accumAll srs ([], [])).1 :=
      (mem_sortBy scoreDescEntry _ e).mp heent
    have hepos : 0 < e.2 := hinv.1 e hemem
    have hle : e.2 ≤ fusionMaxScore srs :=
      headD_ge_of_pairwise Prod.snd (0, 0) (fusionEntries srs)
        (fusionEntries_pairwise srs) e heent
    have hmax : 0 < fusionMaxScore srs := lt_of_lt_of_le hepos hle
    simp only [if_pos hmax]
    exact ⟨div_pos hepos hmax, (div_le_one hmax).mpr hle⟩

theorem fusionMerge_head (srs : List StrategyResult) (limit : Nat)
    (hw : ∀ sr ∈ srs, 0 < sr.weight)
    (hne : fusionMerge srs limit ≠ []) :
    ((fusionMerge srs limit).headD default).score = 1 := by
  unfold fusionMerge at hne ⊢
  by_cases hemp : (accumAll srs ([], [])).1.isEmpty
  · simp [hemp] at hne
  · simp only [hemp, Bool.false_eq_true, if_false] at hne ⊢
    have hinv := accumAll_inv srs hw ([], []) ⟨by simp, by simp⟩
    rcases hents : fusionEntries srs with _ | ⟨e0, t⟩
    · rw [hents] at hne
      simp at hne
    · cases limit with
      | zero =>
          rw [hents] at hne
          simp at hne
      | succ n =>
          have he0ent : e0 ∈ fusionEntries srs := by
            rw [hents]; exact List.mem_cons_self e0 t
          have he0mem : e0 ∈ (accumAll srs ([], [])).1 :=
            (mem_sortBy scoreDescEntry _ e0).mp he0ent
          rcases hinv.2 e0 he0mem with ⟨base, hbase⟩
          have hmaxeq : fusionMaxScore srs = e0.2 := by
            unfold fusionMaxScore
            rw [hents]
            rfl
          have hmax : 0 < fusionMaxScore srs := hmaxeq ▸ hinv.1 e0 he0mem
          simp only [List.take_succ_cons, List.filterMap_cons, hbase,
            Option.map_some']
          simp only [List.headD_cons, hmaxeq]
          rw [if_pos (show (0 : ℚ) < e0.2 from hmaxeq ▸ hmax)]
          exact div_self (ne_of_gt (hmaxeq ▸ hmax))

-- ── Positivity through the boost pipeline ───────────────────────────────────

theorem boostDir_ge (d : List (List Char)) (tl : List Char) (acc : ℚ) :
    acc ≤ boostDir d tl acc := by
  unfold boostDir
  split_ifs
  · exact le_max_left _ _
  · exact le_refl _

theorem boostFile_ge (f tl : List Char) (acc : ℚ) :
    acc ≤ boostFile f tl acc := by
  unfold boostFile
  split_ifs
  · exact le_max_left _ _
  · exact le_refl _

theorem boostSub_ge (p tl : List Char) (acc : ℚ) :
    acc ≤ boostSub p tl acc := by
  unfold boostSub
  split_ifs
  · exact le_max_left _ _
  · exact le_refl _

theorem boostStep_ge (p : List Char) (d : List (List Char)) (f : List Char)
    (acc : ℚ) (t : List Char) : acc ≤ boostStep p d f acc t := by
  unfold boostStep
  exact le_trans (boostDir_ge d (toLowerStr t) acc)
    (le_trans (boostFile_ge f (toLowerStr t) _) (boostSub_ge p (toLowerStr t) _))

theorem foldl_boostStep_ge (p : List Char) (d : List (List Char))
    (f : List Char) :
    ∀ (terms : List (List Char)) (acc : ℚ),
      acc ≤ terms.foldl (boostStep p d f) acc := by
  intro terms
  induction terms with
  | nil => intro acc; exact le_refl acc
  | cons t rest ih =>
      intro acc
      exact le_trans (boostStep_ge p d f acc t) (ih _)

theorem getPathBoostFactor_ge_one (fp : List Char) (terms : List (List Char)) :
    1 ≤ getPathBoostFactor fp terms :=
  foldl_boostStep_ge _ _ _ terms 1

theorem applyPathBoost_pos (l : List SearchResult) (terms : List (List Char))
    (h : ∀ r ∈ l, 0 < r.score) :
    ∀ r ∈ applyPathBoost l terms, 0 < r.score := by
  intro r hr
  unfold applyPathBoost at hr
  split_ifs at hr
  · exact h r hr
  · rw [List.mem_map] at hr
    rcases hr with ⟨x, hx, hxr⟩
    subst hxr
    exact mul_pos (h x hx)
      (lt_of_lt_of_le one_pos (getPathBoostFactor_ge_one x.filePath terms))

theorem allpos_map_scale (p : SearchResult → Prop) [DecidablePred p] (c : ℚ)
    (hc : 0 < c) (l : List SearchResult) (h : ∀ r ∈ l, 0 < r.score) :
    ∀ r ∈ l.map (fun r => if p r then { r with score := r.score * c } else r),
      0 < r.score := by
  intro r hr
  rw [List.mem_map] at hr
  rcases hr with ⟨x, hx, hxr⟩
  subst hxr
  by_cases hp : p x
  · simp only [if_pos hp]
    exact mul_pos (h x hx) hc
  · simp only [if_neg hp]
    exact h x hx

theorem applyImportDeprio_pos (l : List SearchResult)
    (h : ∀ r ∈ l, 0 < r.score) : ∀ r ∈ applyImportDeprio l, 0 < r.score := by
  unfold applyImportDeprio
  split_ifs
  · exact h
  · exact h
  · exact allpos_map_scale _ (1/2) (by norm_num) l h

theorem applyTestFileDeprio_pos (l : List SearchResult)
    (h : ∀ r ∈ l, 0 < r.score) : ∀ r ∈ applyTestFileDeprio l, 0 < r.score := by
  unfold applyTestFileDeprio
  split_ifs
  · exact h
  · exact h
  · exact allpos_map_scale _ (13/20) (by norm_num) l h

theorem applySmallSnippetDeprio_pos (l : List SearchResult)
    (h : ∀ r ∈ l, 0 < r.score) :
    ∀ r ∈ applySmallSnippetDeprio l, 0 < r.score := by
  unfold applySmallSnippetDeprio
  split_ifs
  · exact h
  · exact h
  · exact allpos_map_scale _ (3/4) (by norm_num) l h

theorem applyPublicApiBoost_pos (l : List SearchResult)
    (h : ∀ r ∈ l, 0 < r.score) :
    ∀ r ∈ applyPublicApiBoost l, 0 < r.score := by
  unfold applyPublicApiBoost
  exact allpos_map_scale _ (28/25) (by norm_num) l h

theorem diversityFactor_pos (n : Nat) : 0 < diversityFactor n := by
  unfold diversityFactor
  split_ifs <;> norm_num

theorem divWalk_pos :
    ∀ (l : List SearchResult) (seen : List (List Char × Nat)),
      (∀ r ∈ l, 0 < r.score) → ∀ r ∈ divWalk l seen, 0 < r.score := by
  intro l
  induction l with
  | nil => intro seen _ r hr; simp [divWalk] at hr
  | cons x rest ih =>
      intro seen h r hr
      rw [divWalk] at hr
      rcases List.mem_cons.mp hr with hr | hr
      · subst hr
        exact mul_pos (h x (List.mem_cons_self x rest)) (diversityFactor_pos _)
      · exact ih _ (fun y hy => h y (List.mem_cons_of_mem x hy)) r hr

theorem applyFileDiversity_pos (l : List SearchResult)
    (h : ∀ r ∈ l, 0 < r.score) :
    ∀ r ∈ applyFileDiversity l, 0 < r.score := by
  unfold applyFileDiversity
  split_ifs
  · exact h
  · exact divWalk_pos _ []
      (fun y hy => h y ((mem_sortBy scoreDescResult l y).mp hy))

theorem boostPipeline_pos (l : List SearchResult) (terms : List (List Char))
    (h : ∀ r ∈ l, 0 < r.score) :
    ∀ r ∈ boostPipeline l terms, 0 < r.score := by
  unfold boostPipeline
  exact applyFileDiversity_pos _
    (applyPublicApiBoost_pos _
      (applySmallSnippetDeprio_pos _
        (applyTestFileDeprio_pos _
          (applyImportDeprio_pos _
            (applyPathBoost_pos l terms h)))))

-- ── renormalize facts ───────────────────────────────────────────────────────

theorem foldl_max_le_init (l : List SearchResult) :
    ∀ a : ℚ, a ≤ l.foldl (fun acc x => max acc x.score) a := by
  induction l with
  | nil => intro a; exact le_refl a
  | cons x rest ih =>
      intro a
      exact le_trans (le_max_left a x.score) (ih _)

theorem mem_le_foldl_max (l : List SearchResult) :
    ∀ (a : ℚ) (x : SearchResult), x ∈ l →
      x.score ≤ l.foldl (fun acc y => max acc y.score) a := by
  induction l with
  | nil => intro a x hx; exact absurd hx (List.not_mem_nil x)
  | cons y rest ih =>
      intro a x hx
      rcases List.mem_cons.mp hx with hx | hx
      · subst hx
        exact le_trans (le_max_right a x.score) (foldl_max_le_init rest _)
      · exact ih _ x hx

theorem foldl_max_of_bounded (rest : List SearchResult) :
    ∀ a : ℚ, (∀ x ∈ rest, x.score ≤ a) →
      rest.foldl (fun acc x => max acc x.score) a = a := by
  induction rest with
  | nil => intro a _; rfl
  | cons y t ih =>
      intro a h
      rw [List.foldl_cons, max_eq_left (h y (List.mem_cons_self y t))]
      exact ih a (fun x hx => h x (List.mem_cons_of_mem y hx))

theorem maxScoreOf_mem_le (l : List SearchResult) :
    ∀ r ∈ l, r.score ≤ maxScoreOf l := by
  intro r hr
  cases l with
  | nil => exact absurd hr (List.not_mem_nil r)
  | cons h t =>
      rcases List.mem_cons.mp hr with hr | hr
      · subst hr
        exact foldl_max_le_init t _
      · exact mem_le_foldl_max t _ r hr

theorem maxScoreOf_head (l : List SearchResult)
    (hp : l.Pairwise (fun a b => b.score ≤ a.score)) (hne : l ≠ []) :
    maxScoreOf l = (l.headD default).score := by
  cases l with
  | nil => exact absurd rfl hne
  | cons h t =>
      simp only [maxScoreOf, List.headD_cons]
      exact foldl_max_of_bounded t h.score (List.pairwise_cons.mp hp).1

theorem renormalize_spec (l : List SearchResult) (hne : l ≠ [])
    (hpos : ∀ r ∈ l, 0 < r.score)
    (hp : l.Pairwise (fun a b => b.score ≤ a.score)) :
    (∀ r ∈ renormalize l, 0 < r.score ∧ r.score ≤ 1) ∧
    ((renormalize l).headD default).score = 1 := by
  have hmaxeq : maxScoreOf l = (l.headD default).score := maxScoreOf_head l hp hne
  have hmaxpos : 0 < maxScoreOf l := hmaxeq ▸ hpos _ (headD_mem l hne)
  have hemp : l.isEmpty = false := by
    cases l with
    | nil => exact absurd rfl hne
    | cons h t => rfl
  unfold renormalize
  rw [hemp]
  simp only [Bool.false_eq_true, if_false, if_neg (ne_of_gt hmaxpos)]
  constructor
  · intro r hr
    rw [List.mem_map] at hr
    rcases hr with ⟨x, hx, hxr⟩
    subst hxr
    exact ⟨div_pos (hpos x hx) hmaxpos,
      (div_le_one hmaxpos).mpr (maxScoreOf_mem_le l x hx)⟩
  · cases l with
    | nil => exact absurd rfl hne
    | cons h t =>
        simp only [List.map_cons, List.headD_cons]
        simp only [List.headD_cons] at hmaxeq
        rw [hmaxeq]
        exact div_self (ne_of_gt (hmaxeq ▸ hmaxpos))

/-- C5 — With positive per-strategy weights, every fused score — of
`fusionMerge` and of `fusionMergeWithPathBoost` after all boosts and
penalties — lies in `[0, 1]`, and the top-ranked result's score is exactly 1
whenever any results are returned (with positive weights the accumulated
scores are never all zero, so the zero-keeping branch of the normalizers
cannot trigger). -/
theorem fusion_scores_normalized (srs : List StrategyResult) (limit : Nat)
    (terms : List (List Char)) (hw : ∀ sr ∈ srs, 0 < sr.weight) :
    (∀ r ∈ fusionMerge srs limit, 0 ≤ r.score ∧ r.score ≤ 1) ∧
    (fusionMerge srs limit ≠ [] →
      ((fusionMerge srs limit).headD default).score = 1) ∧
    (∀ r ∈ fusionMergeWithPathBoost srs limit terms,
      0 ≤ r.score ∧ r.score ≤ 1) ∧
    (fusionMergeWithPathBoost srs limit terms ≠ [] →
      ((fusionMergeWithPathBoost srs limit terms).headD default).score = 1) := by
  have hsorted := sortBy_pairwise scoreDescResult scoreDescResult_total
    scoreDescResult_trans (boostPipeline (fusionMerge srs (limit * 3)) terms)
  have hsorted' : (sortBy scoreDescResult
      (boostPipeline (fusionMerge srs (limit * 3)) terms)).Pairwise
      (fun a b => b.score ≤ a.score) :=
    hsorted.imp (fun h => by simpa [scoreDescResult] using h)
  have htaken : ((sortBy scoreDescResult
      (boostPipeline (fusionMerge srs (limit * 3)) terms)).take limit).Pairwise
      (fun a b => b.score ≤ a.score) :=
    hsorted'.sublist (List.take_sublist limit _)
  have htakenpos : ∀ r ∈ (sortBy scoreDescResult
      (boostPipeline (fusionMerge srs (limit * 3)) terms)).take limit,
      0 < r.score := by
    intro r hr
    have h1 := List.take_subset limit _ hr
    have h2 := (mem_sortBy scoreDescResult _ r).mp h1
    exact boostPipeline_pos _ terms
      (fun x hx => (fusionMerge_mem srs (limit * 3) hw x hx).1) r h2
  refine ⟨?_, fusionMerge_head srs limit hw, ?_, ?_⟩
  · intro r hr
    rcases fusionMerge_mem srs limit hw r hr with ⟨h1, h2⟩
    exact ⟨le_of_lt h1, h2⟩
  · intro r hr
    unfold fusionMergeWithPathBoost at hr
    split_ifs at hr
    · simp at hr
    · by_cases htk : (sortBy scoreDescResult
        (boostPipeline (fusionMerge srs (limit * 3)) terms)).take limit = []
      · rw [htk] at hr
        simp [renormalize] at hr
      · rcases (renormalize_spec _ htk htakenpos htaken).1 r hr with ⟨h1, h2⟩
        exact ⟨le_of_lt h1, h2⟩
  · intro hne
    unfold fusionMergeWithPathBoost at hne ⊢
    split_ifs at hne ⊢ with hfe
    · exact absurd rfl hne
    · by_cases htk : (sortBy scoreDescResult
        (boostPipeline (fusionMerge srs (limit * 3)) terms)).take limit = []
      · rw [htk] at hne
        simp [renormalize] at hne
      · exact (renormalize_spec _ htk htakenpos htaken).2

/-- Witness for C5 at a concrete input: a single FTS strategy of weight 1
with two results produces fused scores `[1, 61/62]`, and the theorem's head
conjunct yields the top score 1 for both fusion entry points. -/
theorem fusion_scores_normalized_witness :
    (fusionMerge
        [⟨StrategyName.fts, 1,
          [{ chunkId := 1, filePath := "a.ts".toList, lineStart := 1,
             lineEnd := 9, name := none, type := "function".toList,
             text := [], score := 1, language := [], exported := none },
           { chunkId := 2, filePath := "b.ts".toList, lineStart := 1,
             lineEnd := 9, name := none, type := "function".toList,
             text := [], score := 9/10, language := [], exported := none }]⟩]
        10).map SearchResult.score = [1, 61/62] ∧
    ((fusionMerge
        [⟨StrategyName.fts, 1,
          [{ chunkId := 1, filePath := "a.ts".toList, lineStart := 1,
             lineEnd := 9, name := none, type := "function".toList,
             text := [], score := 1, language := [], exported := none },
           { chunkId := 2, filePath := "b.ts".toList, lineStart := 1,
             lineEnd := 9, name := none, type := "function".toList,
             text := [], score := 9/10, language := [], exported := none }]⟩]
        10).headD default).score = 1 := by
  have hmap : (fusionMerge
      [⟨StrategyName.fts, 1,
        [{ chunkId := 1, filePath := "a.ts".toList, lineStart := 1,
           lineEnd := 9, name := none, type := "function".toList,
           text := [], score := 1, language := [], exported := none },
         { chunkId := 2, filePath := "b.ts".toList, lineStart := 1,
           lineEnd := 9, name := none, type := "function".toList,
           text := [], score := 9/10, language := [], exported := none }]⟩]
      10).map SearchResult.score = [1, 61/62] := by
    norm_num [fusionMerge, fusionEntries, fusionMaxScore, accumAll,
      accumStrategy, bumpScore, stashResult, lookupId, sortBy, insertBy,
      scoreDescEntry, List.filterMap_cons]
  refine ⟨hmap, ?_⟩
  refine (fusion_scores_normalized _ 10 [] ?_).2.1 ?_
  · intro sr hsr
    rcases List.mem_singleton.mp hsr with rfl
    norm_num
  · intro h
    rw [h] at hmap
    simp at hmap

-- ═══════════════════════════════════════════════════════════════════════════
-- C4 / C6 — the chunker (src/indexer/chunker.ts)
-- ═══════════════════════════════════════════════════════════════════════════

/-- AST node and chunk type tags.  `importDecl` / `exportDecl` / `classDecl`
stand for the source's `"import"` / `"export"` / `"class"` (Lean keywords);
`type`, `function`, `method`, `constant`, `config` keep their names. -/
inductive NodeType where
  | function | classDecl | method | importDecl | exportDecl | type
  | constant | config
  deriving DecidableEq, Repr

/-- `ASTNode` of `src/indexer/parser.ts` (the fields the chunker reads). -/
structure ASTNode where
  type : NodeType
  name : Option (List Char)
  parent : Option (List Char)
  lineStart : Nat
  lineEnd : Nat
  language : List Char
  text : List Char
  exports : Option Bool
  deriving DecidableEq, Repr

instance : Inhabited ASTNode :=
  ⟨⟨NodeType.function, none, none, 0, 0, [], [], none⟩⟩

/-- Model of `makeChunkId` (`sha256("path:ls:le")[:16]`): the SHA-256
truncation is abstracted; the model keeps the hashed preimage as the
identity value. -/
structure ChunkKey where
  path : List Char
  ls : Nat
  le : Nat
  deriving DecidableEq, Repr

def makeChunkId (filePath : List Char) (lineStart lineEnd : Nat) : ChunkKey :=
  ⟨filePath, lineStart, lineEnd⟩

/-- Model of `makeContentHash` (`sha256(text)[:16]`): the SHA-256 truncation
is abstracted; the model keeps the hashed text. -/
structure ContentHash where
  ofText : List Char
  deriving DecidableEq, Repr

def makeContentHash (text : List Char) : ContentHash := ⟨text⟩

/-- `Chunk` of `src/indexer/chunker.ts`. -/
structure Chunk where
  id : ChunkKey
  filePath : List Char
  lineStart : Nat
  lineEnd : Nat
  language : List Char
  type : NodeType
  name : Option (List Char)
  parent : Option (List Char)
  text : List Char
  imports : List (List Char)
  exports : Bool
  hash : ContentHash
  deriving DecidableEq, Repr

/-- `UNMERGEABLE_TYPES` of `chunker.ts`: function, method, class, type,
and import. -/
def isUnmergeable : NodeType → Bool
  | .function | .method | .classDecl | .type | .importDecl => true
  | _ => false

/-- `canMerge` of `chunker.ts`: both types mergeable and equal. -/
def canMerge (a b : Chunk) : Bool :=
  !(isUnmergeable a.type) && !(isUnmergeable b.type) && a.type = b.type

/-- JavaScript `lines.join("\n")`. -/
def joinNL : List (List Char) → List Char
  | [] => []
  | [x] => x
  | x :: y :: rest => x ++ '\n' :: joinNL (y :: rest)

/-- The combination step of the merge pass: trailing `lineEnd`, joined
text, first non-null name, recomputed id and content hash. -/
def mergeChunks (acc c : Chunk) : Chunk :=
  { acc with
    lineEnd := c.lineEnd,
    text := acc.text ++ '\n' :: c.text,
    name := acc.name.or c.name,
    id := makeChunkId acc.filePath acc.lineStart c.lineEnd,
    hash := makeContentHash (acc.text ++ '\n' :: c.text) }

/-- `MERGE_THRESHOLD` of `chunker.ts`. -/
def MERGE_THRESHOLD : Nat := 50

/-- The accumulator loop of `mergeSmallChunks`. -/
def mergeLoop (maxT : Nat) : Option Chunk → List Chunk → List Chunk
  | none, [] => []
  | some acc, [] => [acc]
  | none, c :: rest =>
      if estimateTokens c.text < MERGE_THRESHOLD ∧ isUnmergeable c.type = false
      then mergeLoop maxT (some c) rest
      else c :: mergeLoop maxT none rest
  | some acc, c :: rest =>
      if estimateTokens c.text < MERGE_THRESHOLD ∧
          estimateTokens acc.text + estimateTokens c.text ≤ maxT ∧
          canMerge acc c = true
      then mergeLoop maxT (some (mergeChunks acc c)) rest
      else
        acc ::
          (if estimateTokens c.text < MERGE_THRESHOLD ∧
              isUnmergeable c.type = false
           then mergeLoop maxT (some c) rest
           else c :: mergeLoop maxT none rest)

/-- `mergeSmallChunks` of `chunker.ts` (lines 131–185). -/
def mergeSmallChunks (chunks : List Chunk) (maxT : Nat) : List Chunk :=
  if chunks.length ≤ 1 then chunks else mergeLoop maxT none chunks

/-- `SubChunk` of `chunker.ts`. -/
structure SubChunk where
  lineStart : Nat
  lineEnd : Nat
  text : List Char
  deriving DecidableEq, Repr

/-- The accumulation loop of `splitLargeNode`: push lines until the estimate
reaches `maxT` with more than one accumulated line, then emit (excluding the
offending line) and restart at it. -/
def splitGo (ls maxT : Nat) :
    List (List Char) → Nat → Nat → List (List Char) → List SubChunk
  | [], _, off, accLines =>
      if accLines.length = 0 then []
      else [⟨ls + off, ls + off + accLines.length - 1, joinNL accLines⟩]
  | line :: rest, i, off, accLines =>
      if maxT ≤ estimateTokens (joinNL (accLines ++ [line])) ∧
          1 < (accLines ++ [line]).length then
        ⟨ls + off, ls + off + accLines.length - 1, joinNL accLines⟩ ::
          splitGo ls maxT rest (i + 1) i [line]
      else splitGo ls maxT rest (i + 1) off (accLines ++ [line])

/-- `splitLargeNode` of `chunker.ts`. -/
def splitLargeNode (node : ASTNode) (maxT : Nat) : List SubChunk :=
  splitGo node.lineStart maxT (splitOnChar '\n' node.text) 0 0 []

/-- The `export` → `constant` chunk-type remapping applied on chunk
creation. -/
def mapChunkType (t : NodeType) : NodeType :=
  if t = .exportDecl then .constant else t

/-- A chunk emitted for a node that fits within `maxTokens`. -/
def nodeToChunk (filePath language : List Char)
    (importTexts : List (List Char)) (node : ASTNode) : Chunk :=
  { id := makeChunkId filePath node.lineStart node.lineEnd,
    filePath := filePath,
    lineStart := node.lineStart,
    lineEnd := node.lineEnd,
    language := language,
    type := mapChunkType node.type,
    name := node.name,
    parent := node.parent,
    text := node.text,
    imports := if node.type = .importDecl then [] else importTexts,
    exports := node.exports.getD false,
    hash := makeContentHash node.text }

/-- A chunk emitted for one sub-chunk of a split node. -/
def subToChunk (filePath language : List Char)
    (importTexts : List (List Char)) (node : ASTNode) (sub : SubChunk) :
    Chunk :=
  { id := makeChunkId filePath sub.lineStart sub.lineEnd,
    filePath := filePath,
    lineStart := sub.lineStart,
    lineEnd := sub.lineEnd,
    language := language,
    type := mapChunkType node.type,
    name := node.name,
    parent := node.parent,
    text := sub.text,
    imports := importTexts,
    exports := node.exports.getD false,
    hash := makeContentHash sub.text }

/-- Node sort by `lineStart` (stable, as JavaScript `sort`). -/
def nodeByLine (a b : ASTNode) : Bool := decide (a.lineStart ≤ b.lineStart)

def sortNodes (nodes : List ASTNode) : List ASTNode := sortBy nodeByLine nodes

/-- `groupImports` of `chunker.ts` (lines 97–110): one synthetic import
node from the `lineStart`-sorted imports — first `lineStart`, LAST sorted
node's `lineEnd`, newline-joined texts. -/
def groupImports (imps : List ASTNode) : Option ASTNode :=
  if imps.isEmpty then none
  else
    some
      { type := .importDecl,
        name := none,
        lineStart := ((sortNodes imps).headD default).lineStart,
        lineEnd := ((sortNodes imps).getLastD default).lineEnd,
        language := ((sortNodes imps).headD default).language,
        parent := none,
        text := joinNL ((sortNodes imps).map ASTNode.text),
        exports := none }

/-- The chunk built from the grouped import node (step 1 of `chunkFile`);
`language` is the file-level language (`nodes[0].language`). -/
def importChunkOf (filePath language : List Char) (g : ASTNode) : Chunk :=
  { id := makeChunkId filePath g.lineStart g.lineEnd,
    filePath := filePath,
    lineStart := g.lineStart,
    lineEnd := g.lineEnd,
    language := language,
    type := .importDecl,
    name := none,
    parent := none,
    text := g.text,
    imports := [],
    exports := false,
    hash := makeContentHash g.text }

/-- `collectImportTexts` of `chunker.ts`. -/
def collectImportTexts (nodes : List ASTNode) : List (List Char) :=
  (nodes.filter fun n => n.type = .importDecl).map ASTNode.text

/-- The import nodes of the line-sorted node list. -/
def importNodesOf (nodes : List ASTNode) : List ASTNode :=
  (sortNodes nodes).filter fun n => n.type = .importDecl

/-- The non-import nodes of the line-sorted node list. -/
def nonImportNodesOf (nodes : List ASTNode) : List ASTNode :=
  (sortNodes nodes).filter fun n => ¬ n.type = .importDecl

/-- The class names that have separate method nodes. -/
def classesWithMethodsOf (nodes : List ASTNode) : List (List Char) :=
  (nonImportNodesOf nodes).filterMap fun n =>
    if n.type = .method then n.parent else none

/-- Is this class node suppressed in favour of its method nodes? -/
def isSuppressedClass (cwm : List (List Char)) (n : ASTNode) : Bool :=
  n.type = .classDecl &&
    (match n.name with
     | some nm => cwm.contains nm
     | none => false)

/-- Step 2 of `chunkFile` for one non-import node: a single chunk when the
estimate fits, else the chunks of the line-split. -/
def emitNode (filePath language : List Char) (importTexts : List (List Char))
    (maxT : Nat) (node : ASTNode) : List Chunk :=
  if estimateTokens node.text ≤ maxT then
    [nodeToChunk filePath language importTexts node]
  else (splitLargeNode node maxT).map (subToChunk filePath language importTexts node)

/-- The raw chunk list of `chunkFile` before the line sort and the merge
pass: the grouped import chunk (when imports exist) plus the emitted
chunks of the non-suppressed non-import nodes. -/
def rawChunksOf (nodes : List ASTNode) (filePath : List Char) (maxT : Nat) :
    List Chunk :=
  (match groupImports (importNodesOf nodes) with
   | none => []
   | some g => [importChunkOf filePath ((nodes.headD default).language) g]) ++
    ((nonImportNodesOf nodes).filter
        (fun n => ¬ isSuppressedClass (classesWithMethodsOf nodes) n = true)).flatMap
      (emitNode filePath ((nodes.headD default).language)
        (collectImportTexts nodes) maxT)

/-- Chunk sort by `lineStart` (stable). -/
def chunkByLine (a b : Chunk) : Bool := decide (a.lineStart ≤ b.lineStart)

/-- `chunkFile` of `chunker.ts` (lines 195–295) at an explicit
`maxTokens` (the source default is 500). -/
def chunkFile (nodes : List ASTNode) (filePath : List Char) (maxT : Nat) :
    List Chunk :=
  if nodes.isEmpty then []
  else mergeSmallChunks (sortBy chunkByLine (rawChunksOf nodes filePath maxT)) maxT

-- ── Merge-pass characterization (C4) ────────────────────────────────────────

theorem joinNL_append_single (xs : List (List Char)) (y : List Char)
    (h : xs ≠ []) : joinNL (xs ++ [y]) = joinNL xs ++ '\n' :: y := by
  induction xs with
  | nil => exact absurd rfl h
  | cons x rest ih =>
      cases rest with
      | nil => rfl
      | cons x' rest' =>
          have := ih (by simp)
          simp only [List.cons_append, joinNL, List.append_eq] at this ⊢
          rw [this]
          simp

/-- A merged output chunk of the merge pass: built from a run of at least
two original chunks, all of the same mergeable type and each below the
small-chunk threshold; the text is the newline join, the name the first
non-null, `lineStart`/`lineEnd` come from the first/last of the run, the
estimate of the combined text fits `maxT`, and the content hash is
recomputed from the combined text. -/
def MergedInv (chunks : List Chunk) (maxT : Nat) (c : Chunk) : Prop :=
  ∃ run : List Chunk,
    2 ≤ run.length ∧
    (∀ x ∈ run, x ∈ chunks ∧ estimateTokens x.text < MERGE_THRESHOLD ∧
      x.type = c.type) ∧
    isUnmergeable c.type = false ∧
    c.text = joinNL (run.map Chunk.text) ∧
    c.name = (run.filterMap Chunk.name).head? ∧
    c.lineEnd = (run.getLastD c).lineEnd ∧
    c.lineStart = (run.headD c).lineStart ∧
    estimateTokens c.text ≤ maxT ∧
    c.hash = makeContentHash c.text

/-- Invariant of the merge-pass accumulator: either a fresh original chunk
(admitted below the threshold with a mergeable type) or an already-merged
chunk. -/
def AccInv (chunks : List Chunk) (maxT : Nat) (acc : Chunk) : Prop :=
  (acc ∈ chunks ∧ estimateTokens acc.text < MERGE_THRESHOLD ∧
    isUnmergeable acc.type = false) ∨
  MergedInv chunks maxT acc

theorem canMerge_spec (a b : Chunk) (h : canMerge a b = true) :
    isUnmergeable a.type = false ∧ isUnmergeable b.type = false ∧
      a.type = b.type := by
  simp only [canMerge, Bool.and_eq_true, Bool.not_eq_true',
    decide_eq_true_eq] at h
  exact ⟨h.1.1, h.1.2, h.2⟩

theorem head?_append_of_some {α : Type _} (l1 l2 : List α) (a : α)
    (h : l1.head? = some a) : (l1 ++ l2).head? = some a := by
  cases l1 with
  | nil => simp at h
  | cons x rest => simpa using h

theorem mergedInv_step (chunks : List Chunk) (maxT : Nat) (acc c : Chunk)
    (hacc : AccInv chunks maxT acc) (hc : c ∈ chunks)
    (h1 : estimateTokens c.text < MERGE_THRESHOLD)
    (h2 : estimateTokens acc.text + estimateTokens c.text ≤ maxT)
    (h3 : canMerge acc c = true) :
    MergedInv chunks maxT (mergeChunks acc c) := by
  rcases canMerge_spec acc c h3 with ⟨hu1, _, hty⟩
  have hest : estimateTokens (mergeChunks acc c).text ≤ maxT := by
    have := estimateTokens_join_le acc.text c.text
    simp only [mergeChunks]
    omega
  rcases hacc with ⟨hmem, hsmall, _⟩ | ⟨run, hlen, hall, _, htext, hname,
      _, hls, _, _⟩
  · refine ⟨[acc, c], by simp, ?_, hu1, ?_, ?_, by simp [mergeChunks],
      by simp [mergeChunks], hest, rfl⟩
    · intro x hx
      rcases List.mem_cons.mp hx with hx | hx
      · subst hx
        exact ⟨hmem, hsmall, rfl⟩
      · rcases List.mem_singleton.mp hx with rfl
        exact ⟨hc, h1, hty.symm⟩
    · rfl
    · cases hn : acc.name with
      | some n => simp [mergeChunks, List.filterMap_cons, hn, Option.or]
      | none =>
          cases hm : c.name with
          | some m => simp [mergeChunks, List.filterMap_cons, hn, hm, Option.or]
          | none => simp [mergeChunks, List.filterMap_cons, hn, hm, Option.or]
  · have hrunne : run ≠ [] := by
      intro h
      rw [h] at hlen
      simp at hlen
    refine ⟨run ++ [c], ?_, ?_, hu1, ?_, ?_, ?_, ?_, hest, rfl⟩
    · rw [List.length_append]
      omega
    · intro x hx
      rcases List.mem_append.mp hx with hx | hx
      · rcases hall x hx with ⟨ha, hb, hcty⟩
        exact ⟨ha, hb, hcty⟩
      · rcases List.mem_singleton.mp hx with rfl
        exact ⟨hc, h1, hty.symm⟩
    · rw [List.map_append]
      have hmapne : run.map Chunk.text ≠ [] := by
        simpa using hrunne
      rw [List.map_singleton, joinNL_append_single _ _ hmapne, ← htext]
      rfl
    · rw [List.filterMap_append]
      cases hn : acc.name with
      | some n =>
          have hh : (run.filterMap Chunk.name).head? = some n := by
            rw [← hname, hn]
          rw [head?_append_of_some _ _ n hh]
          simp [mergeChunks, hn, Option.or]
      | none =>
          have hh : run.filterMap Chunk.name = [] := by
            have : (run.filterMap Chunk.name).head? = none := by
              rw [← hname, hn]
            exact List.head?_eq_none_iff.mp this
          rw [hh, List.nil_append]
          cases hm : c.name with
          | some m => simp [mergeChunks, hn, hm, List.filterMap_cons, Option.or]
          | none => simp [mergeChunks, hn, hm, List.filterMap_cons, Option.or]
    · have : (run ++ [c]).getLastD (mergeChunks acc c) = c := by
        rw [List.getLastD_concat]
      rw [this]
      rfl
    · have : (run ++ [c]).headD (mergeChunks acc c) = run.headD acc := by
        cases run with
        | nil => exact absurd rfl hrunne
        | cons r t => rfl
      rw [this]
      simpa [mergeChunks] using hls

theorem mergeLoop_spec (maxT : Nat) (chunks : List Chunk) :
    ∀ (rest : List Chunk) (accOpt : Option Chunk),
      (∀ x ∈ rest, x ∈ chunks) →
      (∀ acc, accOpt = some acc → AccInv chunks maxT acc) →
      ∀ c ∈ mergeLoop maxT accOpt rest,
        c ∈ chunks ∨ MergedInv chunks maxT c := by
  intro rest
  induction rest with
  | nil =>
      intro accOpt _ hacc c hcmem
      cases accOpt with
      | none => simp [mergeLoop] at hcmem
      | some acc =>
          rw [mergeLoop] at hcmem
          rcases List.mem_singleton.mp hcmem with rfl
          rcases hacc c rfl with ⟨h, _, _⟩ | h
          · exact Or.inl h
          · exact Or.inr h
  | cons x rest ih =>
      intro accOpt hrest hacc c hcmem
      have hrest' : ∀ y ∈ rest, y ∈ chunks :=
        fun y hy => hrest y (List.mem_cons_of_mem x hy)
      have hx : x ∈ chunks := hrest x (List.mem_cons_self x rest)
      cases accOpt with
      | none =>
          rw [mergeLoop] at hcmem
          split_ifs at hcmem with hfresh
          · exact ih (some x) hrest'
              (fun a ha => by
                rcases Option.some.injEq _ _ ▸ ha with h
                cases h
                exact Or.inl ⟨hx, hfresh.1, hfresh.2⟩) c hcmem
          · rcases List.mem_cons.mp hcmem with rfl | hcmem
            · exact Or.inl hx
            · exact ih none hrest' (by intro a ha; cases ha) c hcmem
      | some acc =>
          rw [mergeLoop] at hcmem
          split_ifs at hcmem with hmerge hfresh
          · exact ih (some (mergeChunks acc x)) hrest'
              (fun a ha => by
                cases ha
                exact Or.inr (mergedInv_step chunks maxT acc x
                  (hacc acc rfl) hx hmerge.1 hmerge.2.1 hmerge.2.2)) c hcmem
          · rcases List.mem_cons.mp hcmem with rfl | hcmem
            · rcases hacc c rfl with ⟨h, _, _⟩ | h
              · exact Or.inl h
              · exact Or.inr h
            · exact ih (some x) hrest'
                (fun a ha => by
                  cases ha
                  exact Or.inl ⟨hx, hfresh.1, hfresh.2⟩) c hcmem
          · rcases List.mem_cons.mp hcmem with rfl | hcmem
            · rcases hacc c rfl with ⟨h, _, _⟩ | h
              · exact Or.inl h
              · exact Or.inr h
            · rcases List.mem_cons.mp hcmem with rfl | hcmem
              · exact Or.inl hx
              · exact ih none hrest' (by intro a ha; cases ha) c hcmem

/-- C4 (amended) — Every chunk produced by the merge pass is either an
original chunk, unchanged, or a merge of a run of at least two original
chunks that all share one mergeable type (not in {function, method, class,
type, import}) and were each below the ≈50-token threshold when originally
emitted; the merged text is the newline join of the run (so the merged
name is the first non-null, the merged `lineEnd` the trailing chunk's, the
hash recomputed, and the combined estimate stays ≤ `max_tokens`).  The
original claim's stronger reading — that at every pairwise combination both
sides are currently below the threshold — fails: only the incoming chunk is
re-checked, and a chained accumulator can exceed the threshold (see the
counterexample). -/
theorem mergeSmallChunks_characterization (chunks : List Chunk) (maxT : Nat) :
    ∀ c ∈ mergeSmallChunks chunks maxT,
      c ∈ chunks ∨ MergedInv chunks maxT c := by
  intro c hc
  unfold mergeSmallChunks at hc
  split_ifs at hc
  · exact Or.inl hc
  · exact mergeLoop_spec maxT chunks chunks none (fun x hx => hx)
      (by intro a ha; cases ha) c hc

/-- 30 space-separated one-letter words (≈39 estimated tokens). -/
def words30 : List Char :=
  (List.replicate 29 ['w', ' ']).flatten ++ ['w']

def chainChunkEx (k : Nat) : Chunk :=
  { id := makeChunkId ['f'] k k,
    filePath := ['f'],
    lineStart := k,
    lineEnd := k,
    language := [],
    type := .constant,
    name := none,
    parent := none,
    text := words30,
    imports := [],
    exports := false,
    hash := makeContentHash words30 }

/-- Counterexample for C4 as stated: merging three adjacent 39-token
`constant` chunks (each below the 50-token threshold) chains through the
accumulator — the final combination step merges an accumulated chunk of 78
estimated tokens (≥ 50) with the third chunk, so "each of the two chunks
being combined is below the threshold" fails for the pass's actual
combination steps. -/
theorem mergeSmallChunks_chain_counterexample :
    (mergeSmallChunks [chainChunkEx 1, chainChunkEx 2, chainChunkEx 3]
      500).map Chunk.text =
      [words30 ++ '\n' :: words30 ++ '\n' :: words30] ∧
    estimateTokens words30 = 39 ∧
    estimateTokens (words30 ++ '\n' :: words30) = 78 ∧
    ¬ estimateTokens (words30 ++ '\n' :: words30) < MERGE_THRESHOLD := by
  refine ⟨by decide, by decide, by decide, by decide⟩

/-- Witness for C4 (amended): merging two 39-token constants produces the
single merged chunk, and the characterization theorem applies to it at this
concrete input. -/
theorem mergeSmallChunks_characterization_witness :
    (mergeSmallChunks [chainChunkEx 1, chainChunkEx 2] 500) =
      [mergeChunks (chainChunkEx 1) (chainChunkEx 2)] ∧
    (mergeChunks (chainChunkEx 1) (chainChunkEx 2) ∈
        [chainChunkEx 1, chainChunkEx 2] ∨
      MergedInv [chainChunkEx 1, chainChunkEx 2] 500
        (mergeChunks (chainChunkEx 1) (chainChunkEx 2))) := by
  refine ⟨by decide, ?_⟩
  exact mergeSmallChunks_characterization [chainChunkEx 1, chainChunkEx 2] 500
    (mergeChunks (chainChunkEx 1) (chainChunkEx 2)) (by decide)

-- ── Import collapsing (C6) ──────────────────────────────────────────────────

/-- Is a chunk the synthetic import chunk? -/
def isImportChunk (c : Chunk) : Bool := decide (c.type = NodeType.importDecl)

theorem isImportChunk_eq_false (c : Chunk) (h : isUnmergeable c.type = false) :
    isImportChunk c = false := by
  unfold isImportChunk
  cases hty : c.type <;> simp_all [isUnmergeable]

theorem mapChunkType_ne_import (t : NodeType) (h : ¬ t = NodeType.importDecl) :
    ¬ mapChunkType t = NodeType.importDecl := by
  cases t <;> simp_all [mapChunkType]

theorem emitNode_types (fp lang : List Char) (its : List (List Char))
    (maxT : Nat) (node : ASTNode) :
    ∀ c ∈ emitNode fp lang its maxT node, c.type = mapChunkType node.type := by
  intro c hc
  unfold emitNode at hc
  split_ifs at hc
  · rcases List.mem_singleton.mp hc with rfl
    rfl
  · rw [List.mem_map] at hc
    rcases hc with ⟨sub, _, rfl⟩
    rfl

theorem mergeLoop_filter_import (maxT : Nat) :
    ∀ (l : List Chunk) (accOpt : Option Chunk),
      (∀ acc, accOpt = some acc → isUnmergeable acc.type = false) →
      (mergeLoop maxT accOpt l).filter isImportChunk =
        (accOpt.toList ++ l).filter isImportChunk := by
  intro l
  induction l with
  | nil =>
      intro accOpt hacc
      cases accOpt with
      | none => rfl
      | some acc =>
          have hai : isImportChunk acc = false :=
            isImportChunk_eq_false acc (hacc acc rfl)
          simp [mergeLoop, List.filter_cons, hai]
  | cons c rest ih =>
      intro accOpt hacc
      cases accOpt with
      | none =>
          rw [mergeLoop]
          split_ifs with hfresh
          · rw [ih (some c) (fun a ha => by cases ha; exact hfresh.2)]
            rfl
          · have hih := ih none (by intro a ha; cases ha)
            simp only [Option.toList_none, List.nil_append] at hih ⊢
            simp [List.filter_cons, hih]
      | some acc =>
          have hai : isImportChunk acc = false :=
            isImportChunk_eq_false acc (hacc acc rfl)
          rw [mergeLoop]
          split_ifs with hmerge hfresh
          · have hci : isImportChunk c = false :=
              isImportChunk_eq_false c (canMerge_spec acc c hmerge.2.2).2.1
            have hmi : isImportChunk (mergeChunks acc c) = false := hai
            rw [ih (some (mergeChunks acc c))
              (fun a ha => by cases ha; exact hacc acc rfl)]
            simp [List.filter_cons, hai, hci, hmi]
          · have hih := ih (some c) (fun a ha => by cases ha; exact hfresh.2)
            simp only [Option.toList_some, List.singleton_append] at hih ⊢
            simp [List.filter_cons, hai, hih]
          · have hih := ih none (by intro a ha; cases ha)
            simp only [Option.toList_none, List.nil_append] at hih ⊢
            simp [List.filter_cons, hai, hih]

theorem sortBy_eq_of_pairwise {α : Type _} (le : α → α → Bool) :
    ∀ l : List α, l.Pairwise (fun a b => le a b = true) → sortBy le l = l := by
  intro l
  induction l with
  | nil => intro _; rfl
  | cons x xs ih =>
      intro h
      rcases List.pairwise_cons.mp h with ⟨hx, hxs⟩
      show insertBy le x (sortBy le xs) = x :: xs
      rw [ih hxs]
      cases xs with
      | nil => rfl
      | cons y ys =>
          rw [insertBy, if_pos (hx y (List.mem_cons_self y ys))]

theorem nodeByLine_total (a b : ASTNode) :
    nodeByLine a b = true ∨ nodeByLine b a = true := by
  simp only [nodeByLine, decide_eq_true_eq]
  exact le_total a.lineStart b.lineStart

theorem nodeByLine_trans (a b c : ASTNode) (h1 : nodeByLine a b = true)
    (h2 : nodeByLine b c = true) : nodeByLine a c = true := by
  simp only [nodeByLine, decide_eq_true_eq] at *
  exact le_trans h1 h2

theorem sortNodes_pairwise (nodes : List ASTNode) :
    (sortNodes nodes).Pairwise
      (fun a b => a.lineStart ≤ b.lineStart) := by
  have := sortBy_pairwise nodeByLine nodeByLine_total nodeByLine_trans nodes
  exact this.imp (fun h => by simpa [nodeByLine] using h)

theorem importNodesOf_pairwise (nodes : List ASTNode) :
    (importNodesOf nodes).Pairwise (fun a b => a.lineStart ≤ b.lineStart) :=
  (sortNodes_pairwise nodes).filter _

theorem sortNodes_importNodesOf (nodes : List ASTNode) :
    sortNodes (importNodesOf nodes) = importNodesOf nodes := by
  apply sortBy_eq_of_pairwise
  exact (importNodesOf_pairwise nodes).imp
    (fun h => by simpa [nodeByLine] using h)

theorem mem_importNodesOf (nodes : List ASTNode) (n : ASTNode) :
    n ∈ importNodesOf nodes ↔ n ∈ nodes ∧ n.type = NodeType.importDecl := by
  unfold importNodesOf
  rw [List.mem_filter]
  constructor
  · rintro ⟨h1, h2⟩
    exact ⟨(mem_sortBy nodeByLine nodes n).mp h1, by simpa using h2⟩
  · rintro ⟨h1, h2⟩
    exact ⟨(mem_sortBy nodeByLine nodes n).mpr h1, by simpa using h2⟩

theorem headD_lineStart_le (l : List ASTNode)
    (hp : l.Pairwise (fun a b => a.lineStart ≤ b.lineStart)) :
    ∀ x ∈ l, (l.headD default).lineStart ≤ x.lineStart := by
  intro x hx
  cases l with
  | nil => exact absurd hx (List.not_mem_nil x)
  | cons h t =>
      rcases List.mem_cons.mp hx with rfl | hx
      · exact le_refl _
      · exact (List.pairwise_cons.mp hp).1 x hx

theorem le_getLastD_lineStart (l : List ASTNode)
    (hp : l.Pairwise (fun a b => a.lineStart ≤ b.lineStart)) :
    ∀ x ∈ l, x.lineStart ≤ (l.getLastD default).lineStart := by
  induction l with
  | nil => intro x hx; exact absurd hx (List.not_mem_nil x)
  | cons h t ih =>
      intro x hx
      rcases List.pairwise_cons.mp hp with ⟨hh, ht⟩
      cases t with
      | nil =>
          rcases List.mem_singleton.mp hx with rfl
          exact le_refl _
      | cons y ys =>
          have hlast : ((h :: y :: ys).getLastD default) =
              ((y :: ys).getLastD default) := by
            simp [List.getLastD_cons]
          rw [hlast]
          rcases List.mem_cons.mp hx with rfl | hx
          · have hmem : (y :: ys).getLastD default ∈ y :: ys := by
              have : (y :: ys).getLastD default = (y :: ys).getLast (by simp) := by
                simp [List.getLastD_eq_getLast?, List.getLast?_eq_getLast]
              rw [this]
              exact List.getLast_mem _
            exact hh _ hmem
          · exact ih ht x hx

theorem headD_mem_of_ne_nil {α : Type _} [Inhabited α] (l : List α)
    (h : l ≠ []) : l.headD default ∈ l := headD_mem l h

/-- C6 (amended) — When the node list has at least one import node,
`chunkFile` emits exactly one chunk of type `import`: its `lineStart` is the
minimum import `lineStart`, its text is the newline join of the import
texts in `lineStart` order, and its `lineEnd` is that of the LAST
node (of kind import) in `lineStart` order — which equals the maximum
such `lineEnd` whenever `lineEnd` is monotone in `lineStart` over the
nodes (in particular for disjoint import statements), but not for
overlapping ranges (see the counterexample).  A file of only imports yields
exactly one chunk, of type import. -/
theorem chunkFile_collapses_imports (nodes : List ASTNode) (fp : List Char)
    (maxT : Nat) (h : ∃ n ∈ nodes, n.type = NodeType.importDecl) :
    ((chunkFile nodes fp maxT).filter isImportChunk).length = 1 ∧
    (∀ c ∈ (chunkFile nodes fp maxT).filter isImportChunk,
      (∀ n ∈ nodes, n.type = NodeType.importDecl →
        c.lineStart ≤ n.lineStart) ∧
      (∃ n ∈ nodes, n.type = NodeType.importDecl ∧
        c.lineStart = n.lineStart) ∧
      c.text = joinNL ((importNodesOf nodes).map ASTNode.text) ∧
      c.lineEnd = ((importNodesOf nodes).getLastD default).lineEnd ∧
      ((∀ a ∈ nodes, ∀ b ∈ nodes, a.type = NodeType.importDecl →
          b.type = NodeType.importDecl → a.lineStart ≤ b.lineStart →
          a.lineEnd ≤ b.lineEnd) →
        ∀ n ∈ nodes, n.type = NodeType.importDecl → n.lineEnd ≤ c.lineEnd)) ∧
    ((∀ n ∈ nodes, n.type = NodeType.importDecl) →
      (chunkFile nodes fp maxT).length = 1 ∧
      ∀ c ∈ chunkFile nodes fp maxT, isImportChunk c = true) := by
  rcases h with ⟨n0, hn0mem, hn0ty⟩
  have himps_mem : n0 ∈ importNodesOf nodes :=
    (mem_importNodesOf nodes n0).mpr ⟨hn0mem, hn0ty⟩
  have himps_ne : importNodesOf nodes ≠ [] := by
    intro hnil
    rw [hnil] at himps_mem
    exact List.not_mem_nil n0 himps_mem
  have hnodes_ne : ¬ nodes.isEmpty = true := by
    cases nodes with
    | nil => exact absurd hn0mem (List.not_mem_nil n0)
    | cons a t => simp
  have himps_empty_false : (importNodesOf nodes).isEmpty = false := by
    cases himp : importNodesOf nodes with
    | nil => exact absurd himp himps_ne
    | cons a t => rfl
  -- the grouped import node
  have hgroup : groupImports (importNodesOf nodes) =
      some
        { type := .importDecl, name := none,
          lineStart := ((importNodesOf nodes).headD default).lineStart,
          lineEnd := ((importNodesOf nodes).getLastD default).lineEnd,
          language := ((importNodesOf nodes).headD default).language,
          parent := none,
          text := joinNL ((importNodesOf nodes).map ASTNode.text),
          exports := none } := by
    unfold groupImports
    rw [himps_empty_false]
    rw [sortNodes_importNodesOf]
    rfl
  set g : ASTNode :=
    { type := .importDecl, name := none,
      lineStart := ((importNodesOf nodes).headD default).lineStart,
      lineEnd := ((importNodesOf nodes).getLastD default).lineEnd,
      language := ((importNodesOf nodes).headD default).language,
      parent := none,
      text := joinNL ((importNodesOf nodes).map ASTNode.text),
      exports := none } with hgdef
  set c0 : Chunk := importChunkOf fp ((nodes.headD default).language) g with hc0def
  -- the raw chunks split into the import chunk and non-import-typed chunks
  have hraw : rawChunksOf nodes fp maxT =
      c0 ::
        ((nonImportNodesOf nodes).filter
            (fun n => ¬ isSuppressedClass (classesWithMethodsOf nodes) n = true)).flatMap
          (emitNode fp ((nodes.headD default).language)
            (collectImportTexts nodes) maxT) := by
    unfold rawChunksOf
    rw [hgroup]
    rfl
  have hemitted_no_import :
      ∀ c ∈ ((nonImportNodesOf nodes).filter
          (fun n => ¬ isSuppressedClass (classesWithMethodsOf nodes) n = true)).flatMap
        (emitNode fp ((nodes.headD default).language)
          (collectImportTexts nodes) maxT),
        isImportChunk c = false := by
    intro c hc
    rw [List.mem_flatMap] at hc
    rcases hc with ⟨node, hnode, hcnode⟩
    have hnty : ¬ node.type = NodeType.importDecl := by
      have := (List.mem_filter.mp hnode).1
      have := (List.mem_filter.mp this).2
      simpa using this
    have := emitNode_types fp _ _ maxT node c hcnode
    unfold isImportChunk
    rw [this]
    simpa using mapChunkType_ne_import node.type hnty
  have hraw_filter : (rawChunksOf nodes fp maxT).filter isImportChunk = [c0] := by
    rw [hraw, List.filter_cons]
    have hc0i : isImportChunk c0 = true := by rfl
    rw [if_pos hc0i, List.filter_eq_nil_iff.mpr
      (fun a ha => by rw [hemitted_no_import a ha]; simp)]
  have hsorted_filter :
      ((sortBy chunkByLine (rawChunksOf nodes fp maxT)).filter isImportChunk) =
        [c0] := by
    have hperm := (sortBy_perm chunkByLine (rawChunksOf nodes fp maxT)).filter
      isImportChunk
    rw [hraw_filter] at hperm
    exact List.perm_singleton.mp hperm
  have hmain : (chunkFile nodes fp maxT).filter isImportChunk = [c0] := by
    unfold chunkFile
    rw [if_neg hnodes_ne]
    unfold mergeSmallChunks
    split_ifs
    · exact hsorted_filter
    · rw [mergeLoop_filter_import maxT _ none (by intro a ha; cases ha)]
      simpa using hsorted_filter
  refine ⟨by rw [hmain]; rfl, ?_, ?_⟩
  · intro c hc
    rw [hmain, List.mem_singleton] at hc
    subst hc
    have hc0ls : c0.lineStart = ((importNodesOf nodes).headD default).lineStart := rfl
    have hc0le : c0.lineEnd = ((importNodesOf nodes).getLastD default).lineEnd := rfl
    have hc0tx : c0.text = joinNL ((importNodesOf nodes).map ASTNode.text) := rfl
    refine ⟨?_, ?_, hc0tx, hc0le, ?_⟩
    · intro n hn hnty
      rw [hc0ls]
      exact headD_lineStart_le (importNodesOf nodes)
        (importNodesOf_pairwise nodes) n
        ((mem_importNodesOf nodes n).mpr ⟨hn, hnty⟩)
    · have hh := headD_mem_of_ne_nil (importNodesOf nodes) himps_ne
      rcases (mem_importNodesOf nodes _).mp hh with ⟨h1, h2⟩
      exact ⟨_, h1, h2, hc0ls⟩
    · intro hmono n hn hnty
      rw [hc0le]
      have hlastmem := by
        have : (importNodesOf nodes).getLastD default ∈ importNodesOf nodes := by
          cases himp : importNodesOf nodes with
          | nil => exact absurd himp himps_ne
          | cons a t =>
              have : (a :: t).getLastD default = (a :: t).getLast (by simp) := by
                simp [List.getLastD_eq_getLast?, List.getLast?_eq_getLast]
              rw [this]
              exact List.getLast_mem _
        exact this
      rcases (mem_importNodesOf nodes _).mp hlastmem with ⟨hl1, hl2⟩
      exact hmono n hn ((importNodesOf nodes).getLastD default) hl1 hnty hl2
        (le_getLastD_lineStart (importNodesOf nodes)
          (importNodesOf_pairwise nodes) n
          ((mem_importNodesOf nodes n).mpr ⟨hn, hnty⟩))
  · intro hall
    have hnonimp : nonImportNodesOf nodes = [] := by
      unfold nonImportNodesOf
      rw [List.filter_eq_nil_iff]
      intro a ha
      have := hall a ((mem_sortBy nodeByLine nodes a).mp ha)
      simp [this]
    have hrawonly : rawChunksOf nodes fp maxT = [c0] := by
      rw [hraw, hnonimp]
      rfl
    have hout : chunkFile nodes fp maxT = [c0] := by
      unfold chunkFile
      rw [if_neg hnodes_ne, hrawonly]
      rfl
    rw [hout]
    refine ⟨rfl, ?_⟩
    intro c hc
    rcases List.mem_singleton.mp hc with rfl
    rfl

/-- Overlapping import nodes used as the concrete counterexample input for
C6: one spanning lines 1–5 and one at line 2. -/
def impNodeA : ASTNode :=
  ⟨NodeType.importDecl, none, none, 1, 5, [], ['A'], none⟩

def impNodeB : ASTNode :=
  ⟨NodeType.importDecl, none, none, 2, 2, [], ['B'], none⟩

/-- Counterexample for C6 as stated: with import nodes spanning 1–5 and
2–2, the single synthetic import chunk covers `[1, 2]` — its `lineEnd` is
the lineEnd of the last such node in `lineStart` order (2), not their
maximum `lineEnd` (5), so it does not span `[min line_start, max
line_end]`. -/
theorem chunkFile_import_span_counterexample :
    (chunkFile [impNodeA, impNodeB] ['f'] 500).map
        (fun c => (c.lineStart, c.lineEnd)) = [(1, 2)] ∧
    impNodeA ∈ [impNodeA, impNodeB] ∧
    impNodeA.type = NodeType.importDecl ∧
    impNodeA.lineEnd = 5 ∧
    ¬ (5 : Nat) ≤ 2 := by
  refine ⟨by decide, by decide, by decide, by decide, by decide⟩

/-- Disjoint import nodes used as the witness input for C6. -/
def impNodeC : ASTNode :=
  ⟨NodeType.importDecl, none, none, 1, 1, [], ['a'], none⟩

def impNodeD : ASTNode :=
  ⟨NodeType.importDecl, none, none, 2, 2, [], ['b'], none⟩

/-- Witness for C6 (amended) at a concrete only-imports input with two
disjoint import nodes: exactly one chunk overall and exactly one import
chunk. -/
theorem chunkFile_collapses_imports_witness :
    ((chunkFile [impNodeC, impNodeD] ['f'] 500).filter isImportChunk).length
      = 1 ∧
    (chunkFile [impNodeC, impNodeD] ['f'] 500).length = 1 := by
  have hthm := chunkFile_collapses_imports [impNodeC, impNodeD] ['f'] 500
    ⟨impNodeC, by decide, by decide⟩
  exact ⟨hthm.1, (hthm.2.2 (by decide)).1⟩

-- ═══════════════════════════════════════════════════════════════════════════
-- C8 — FTS query sanitization (src/search/fts.ts)
-- ═══════════════════════════════════════════════════════════════════════════

/-- The FTS5 special-operator characters stripped by `sanitizeFtsQuery`:
`? ( ) " : ^ ~ { } ! + - \` (the braces written via their code points). -/
def isSpecialFts (c : Char) : Bool :=
  c = '?' || c = '(' || c = ')' || c = '"' || c = ':' || c = '^' || c = '~' ||
    c = Char.ofNat 123 || c = Char.ofNat 125 || c = '!' || c = '+' ||
    c = '-' || c = '\\'

/-- First replacement: each special character becomes a space. -/
def stripSpecials (l : List Char) : List Char :=
  l.map fun c => if isSpecialFts c then ' ' else c

/-- Lookbehind state as the single bit the `(?<!\w)` check reads. -/
def isWordOpt : Option Char → Bool
  | none => false
  | some c => isWordChar c

/-- Second replacement, `\*` not preceded by a word character becomes a
space; the lookbehind reads the original previous character. -/
def removeStarsGo : Option Char → List Char → List Char
  | _, [] => []
  | prev, c :: rest =>
      if c = '*' ∧ isWordOpt prev = false then
        ' ' :: removeStarsGo (some c) rest
      else c :: removeStarsGo (some c) rest

def removeStandaloneStars (l : List Char) : List Char := removeStarsGo none l

/-- Third replacement, `\s+` becomes a single space; the flag records
whether the walk is inside a whitespace run already emitted. -/
def collapseGo : List Char → Bool → List Char
  | [], _ => []
  | c :: rest, inRun =>
      if isWsChar c then
        if inRun then collapseGo rest true else ' ' :: collapseGo rest true
      else c :: collapseGo rest false

def collapseWs (l : List Char) : List Char := collapseGo l false

/-- `sanitizeFtsQuery` of `src/search/fts.ts` (lines 15–26): strip the
special characters, drop standalone `*`, collapse whitespace runs, trim. -/
def sanitizeFtsQuery (q : List Char) : List Char :=
  trimWs (collapseWs (removeStandaloneStars (stripSpecials q)))

-- ── Character-class facts ───────────────────────────────────────────────────

theorem ws_not_word (c : Char) (h : isWsChar c = true) :
    isWordChar c = false := by
  simp only [isWsChar, Bool.or_eq_true, decide_eq_true_eq] at h
  rcases h with ((((h | h) | h) | h) | h) | h <;> subst h <;> decide

theorem ws_ne_star (c : Char) (h : isWsChar c = true) : c ≠ '*' := by
  intro hc
  subst hc
  simp [isWsChar] at h

theorem space_not_special : isSpecialFts ' ' = false := by decide

theorem space_is_ws : isWsChar ' ' = true := by decide

theorem space_not_word : isWordChar ' ' = false := by decide

-- ── Normal-form predicates ──────────────────────────────────────────────────

/-- Every `*` is preceded by a word character; the flag is the wordness of
the previous character. -/
def starsOkB : Bool → List Char → Bool
  | _, [] => true
  | w, c :: r => (decide (c ≠ '*') || w) && starsOkB (isWordChar c) r

/-- Whitespace is only the single space character and never follows
whitespace; the flag records whether the previous character was
whitespace. -/
def spacedOkB : Bool → List Char → Bool
  | _, [] => true
  | pw, c :: r =>
      if isWsChar c then (decide (c = ' ') && !pw) && spacedOkB true r
      else spacedOkB false r

/-- Is the first character absent or not whitespace? -/
def headNonWs : List Char → Bool
  | [] => true
  | c :: _ => !isWsChar c

-- ── Stage 1: stripSpecials ──────────────────────────────────────────────────

theorem stripSpecials_noSpecial (l : List Char) :
    ∀ c ∈ stripSpecials l, isSpecialFts c = false := by
  intro c hc
  rw [stripSpecials, List.mem_map] at hc
  rcases hc with ⟨x, _, hxc⟩
  by_cases hx : isSpecialFts x
  · rw [if_pos hx] at hxc
    rw [← hxc]
    exact space_not_special
  · rw [if_neg hx] at hxc
    rw [← hxc]
    exact Bool.not_eq_true _ ▸ (by simpa using hx)

theorem stripSpecials_id (l : List Char)
    (h : ∀ c ∈ l, isSpecialFts c = false) : stripSpecials l = l := by
  induction l with
  | nil => rfl
  | cons c r ih =>
      rw [stripSpecials, List.map_cons,
        if_neg (by simp [h c (List.mem_cons_self c r)]),
        show List.map (fun c => if isSpecialFts c then ' ' else c) r =
          stripSpecials r from rfl,
        ih (fun x hx => h x (List.mem_cons_of_mem c hx))]

-- ── Stage 2: removeStandaloneStars ──────────────────────────────────────────

theorem removeStarsGo_noSpecial :
    ∀ (l : List Char) (prev : Option Char),
      (∀ c ∈ l, isSpecialFts c = false) →
      ∀ c ∈ removeStarsGo prev l, isSpecialFts c = false := by
  intro l
  induction l with
  | nil => intro prev _ c hc; simp [removeStarsGo] at hc
  | cons x r ih =>
      intro prev h c hc
      rw [removeStarsGo] at hc
      have hr := fun y hy => h y (List.mem_cons_of_mem x hy)
      split_ifs at hc
      · rcases List.mem_cons.mp hc with rfl | hc
        · exact space_not_special
        · exact ih (some x) hr c hc
      · rcases List.mem_cons.mp hc with rfl | hc
        · exact h c (List.mem_cons_self c r)
        · exact ih (some x) hr c hc

theorem removeStarsGo_starsOk :
    ∀ (l : List Char) (prev : Option Char),
      starsOkB (isWordOpt prev) (removeStarsGo prev l) = true := by
  intro l
  induction l with
  | nil => intro prev; rfl
  | cons c r ih =>
      intro prev
      rw [removeStarsGo]
      split_ifs with hguard
      · rw [starsOkB]
        have h1 : (decide (' ' ≠ '*') || isWordOpt prev) = true := by
          rw [show decide (' ' ≠ '*') = true from by decide, Bool.true_or]
        rw [h1, Bool.true_and, space_not_word]
        have hthis := ih (some c)
        have hwc : isWordOpt (some c) = false := by
          show isWordChar c = false
          rw [hguard.1]
          decide
        rwa [hwc] at hthis
      · rw [starsOkB]
        have h1 : (decide (c ≠ '*') || isWordOpt prev) = true := by
          rcases not_and_or.mp hguard with h | h
          · simp [h]
          · simp only [Bool.not_eq_false] at h
            simp [h]
        rw [h1, Bool.true_and]
        exact ih (some c)

theorem removeStarsGo_id :
    ∀ (l : List Char) (prev : Option Char),
      starsOkB (isWordOpt prev) l = true → removeStarsGo prev l = l := by
  intro l
  induction l with
  | nil => intro prev _; rfl
  | cons c r ih =>
      intro prev h
      rw [starsOkB, Bool.and_eq_true] at h
      have hneg : ¬(c = '*' ∧ isWordOpt prev = false) := by
        rintro ⟨hstar, hword⟩
        rcases Bool.or_eq_true _ _ |>.mp h.1 with h1 | h1
        · have hne : c ≠ '*' := by simpa using h1
          exact hne hstar
        · rw [show isWordOpt prev = true from h1] at hword
          cases hword
      have h2 : starsOkB (isWordOpt (some c)) r = true := h.2
      rw [removeStarsGo, if_neg hneg, ih (some c) h2]

-- ── Stage 3: collapseWs ─────────────────────────────────────────────────────

theorem collapseGo_noSpecial :
    ∀ (l : List Char) (b : Bool),
      (∀ c ∈ l, isSpecialFts c = false) →
      ∀ c ∈ collapseGo l b, isSpecialFts c = false := by
  intro l
  induction l with
  | nil => intro b _ c hc; simp [collapseGo] at hc
  | cons x r ih =>
      intro b h c hc
      have hr := fun y hy => h y (List.mem_cons_of_mem x hy)
      rw [collapseGo] at hc
      split_ifs at hc
      · exact ih true hr c hc
      · rcases List.mem_cons.mp hc with rfl | hc
        · exact space_not_special
        · exact ih true hr c hc
      · rcases List.mem_cons.mp hc with rfl | hc
        · exact h c (List.mem_cons_self c r)
        · exact ih false hr c hc

theorem collapseGo_starsOk :
    ∀ (l : List Char) (w b : Bool),
      starsOkB w l = true → (b = true → w = false) →
      starsOkB w (collapseGo l b) = true := by
  intro l
  induction l with
  | nil => intro w b _ _; rfl
  | cons c r ih =>
      intro w b h hb
      rw [starsOkB, Bool.and_eq_true] at h
      rw [collapseGo]
      split_ifs with hws hrun
      · -- whitespace, already in a run: skip c
        refine ih w true ?_ (fun _ => hb hrun)
        rw [hb hrun, ← ws_not_word c hws]
        exact h.2
      · -- whitespace, starting a run: emit one space
        rw [starsOkB]
        have h1 : (decide (' ' ≠ '*') || w) = true := by
          simp [decide_eq_true_eq]
        rw [h1, Bool.true_and, space_not_word]
        refine ih false true ?_ (fun _ => rfl)
        rw [← ws_not_word c hws]
        exact h.2
      · -- non-whitespace: emit c
        rw [starsOkB, h.1, Bool.true_and]
        exact ih (isWordChar c) false h.2 (by intro hcontra; cases hcontra)

theorem collapseGo_spacedOk :
    ∀ (l : List Char) (b : Bool), spacedOkB b (collapseGo l b) = true := by
  intro l
  induction l with
  | nil => intro b; rfl
  | cons c r ih =>
      intro b
      rw [collapseGo]
      split_ifs with hws hrun
      · rw [hrun]
        exact ih true
      · rw [spacedOkB, if_pos space_is_ws]
        have hb : b = false := by
          cases hb : b
          · rfl
          · exact absurd hb hrun
        rw [hb]
        simpa using ih true
      · rw [spacedOkB, if_neg (by simpa using hws)]
        exact ih false

theorem collapseGo_id :
    ∀ (l : List Char) (b : Bool), spacedOkB b l = true → collapseGo l b = l := by
  intro l
  induction l with
  | nil => intro b _; rfl
  | cons c r ih =>
      intro b h
      rw [spacedOkB] at h
      by_cases hws : isWsChar c = true
      · rw [if_pos hws, Bool.and_eq_true, Bool.and_eq_true] at h
        rcases h with ⟨⟨hsp, hb⟩, hrest⟩
        have hb' : b = false := by simpa using hb
        have hsp' : c = ' ' := by simpa using hsp
        rw [collapseGo, if_pos hws, hb']
        simp only [Bool.false_eq_true, if_false]
        rw [ih true hrest, hsp']
      · rw [if_neg hws] at h
        rw [collapseGo, if_neg hws]
        rw [ih false h]

-- ── Prefix closure and dropWhile facts ──────────────────────────────────────

theorem starsOkB_append (l1 l2 : List Char) :
    ∀ w : Bool, starsOkB w (l1 ++ l2) = true → starsOkB w l1 = true := by
  induction l1 with
  | nil => intro w _; rfl
  | cons c r ih =>
      intro w h
      rw [List.cons_append, starsOkB, Bool.and_eq_true] at h
      rw [starsOkB, h.1, Bool.true_and]
      exact ih (isWordChar c) h.2

theorem spacedOkB_append (l1 l2 : List Char) :
    ∀ b : Bool, spacedOkB b (l1 ++ l2) = true → spacedOkB b l1 = true := by
  induction l1 with
  | nil => intro b _; rfl
  | cons c r ih =>
      intro b h
      rw [List.cons_append, spacedOkB] at h
      by_cases hws : isWsChar c = true
      · rw [if_pos hws, Bool.and_eq_true] at h
        rw [spacedOkB, if_pos hws, Bool.and_eq_true]
        exact ⟨h.1, ih true h.2⟩
      · rw [if_neg hws] at h
        rw [spacedOkB, if_neg hws]
        exact ih false h

theorem starsOkB_dropWhile (l : List Char)
    (h : starsOkB false l = true) :
    starsOkB false (l.dropWhile isWsChar) = true := by
  induction l with
  | nil => rfl
  | cons c r ih =>
      by_cases hws : isWsChar c = true
      · rw [List.dropWhile_cons_of_pos hws]
        rw [starsOkB, Bool.and_eq_true] at h
        refine ih ?_
        rw [← ws_not_word c hws]
        exact h.2
      · rwa [List.dropWhile_cons_of_neg (by simpa using hws)]

theorem spacedOkB_dropWhile (l : List Char)
    (h : spacedOkB false l = true) :
    spacedOkB false (l.dropWhile isWsChar) = true := by
  induction l with
  | nil => rfl
  | cons c r ih =>
      by_cases hws : isWsChar c = true
      · rw [List.dropWhile_cons_of_pos hws]
        rw [spacedOkB, if_pos hws, Bool.and_eq_true] at h
        cases r with
        | nil => rfl
        | cons d r' =>
            have hd : isWsChar d = false := by
              rcases hspl : isWsChar d
              · rfl
              · have := h.2
                rw [spacedOkB, if_pos hspl] at this
                simp at this
            rw [List.dropWhile_cons_of_neg (by simp [hd])]
            have := h.2
            rw [spacedOkB, if_neg (by simp [hd])] at this
            rw [spacedOkB, if_neg (by simp [hd])]
            exact this
      · rwa [List.dropWhile_cons_of_neg (by simpa using hws)]

theorem headNonWs_dropWhile (l : List Char) :
    headNonWs (l.dropWhile isWsChar) = true := by
  induction l with
  | nil => rfl
  | cons c r ih =>
      by_cases hws : isWsChar c = true
      · rwa [List.dropWhile_cons_of_pos hws]
      · rw [List.dropWhile_cons_of_neg (by simpa using hws)]
        simp [headNonWs, hws]

theorem dropWhile_eq_of_headNonWs (l : List Char)
    (h : headNonWs l = true) : l.dropWhile isWsChar = l := by
  cases l with
  | nil => rfl
  | cons c r =>
      rw [headNonWs, Bool.not_eq_true'] at h
      rw [List.dropWhile_cons_of_neg (by simp [h])]

/-- The trimmed string is a prefix of the front-trimmed string. -/
theorem trimWs_decomp (l : List Char) :
    ∃ t, l.dropWhile isWsChar = trimWs l ++ t := by
  have hsuf : ((l.dropWhile isWsChar).reverse.dropWhile isWsChar) <:+
      (l.dropWhile isWsChar).reverse := List.dropWhile_suffix _
  have hpre : ((l.dropWhile isWsChar).reverse.dropWhile isWsChar).reverse <+:
      (l.dropWhile isWsChar).reverse.reverse := by
    rw [List.reverse_prefix]
    exact hsuf
  rw [List.reverse_reverse] at hpre
  rcases hpre with ⟨t, ht⟩
  exact ⟨t, ht.symm⟩

theorem trimWs_mem (l : List Char) : ∀ c ∈ trimWs l, c ∈ l := by
  intro c hc
  rcases trimWs_decomp l with ⟨t, ht⟩
  have h1 : c ∈ l.dropWhile isWsChar := by
    rw [ht]
    exact List.mem_append_left t hc
  exact (List.dropWhile_suffix isWsChar).subset h1

theorem trimWs_headNonWs (l : List Char) : headNonWs (trimWs l) = true := by
  rcases trimWs_decomp l with ⟨t, ht⟩
  have h1 := headNonWs_dropWhile l
  cases htw : trimWs l with
  | nil => rfl
  | cons c r =>
      rw [htw] at ht
      rw [ht] at h1
      simpa [headNonWs] using h1

theorem trimWs_reverse_headNonWs (l : List Char) :
    headNonWs (trimWs l).reverse = true := by
  unfold trimWs
  rw [List.reverse_reverse]
  exact headNonWs_dropWhile _

theorem trimWs_id (l : List Char) (h1 : headNonWs l = true)
    (h2 : headNonWs l.reverse = true) : trimWs l = l := by
  unfold trimWs
  rw [dropWhile_eq_of_headNonWs l h1, dropWhile_eq_of_headNonWs _ h2,
    List.reverse_reverse]

theorem trimWs_starsOk (l : List Char) (h : starsOkB false l = true) :
    starsOkB false (trimWs l) = true := by
  rcases trimWs_decomp l with ⟨t, ht⟩
  exact starsOkB_append _ t false (ht ▸ starsOkB_dropWhile l h)

theorem trimWs_spacedOk (l : List Char) (h : spacedOkB false l = true) :
    spacedOkB false (trimWs l) = true := by
  rcases trimWs_decomp l with ⟨t, ht⟩
  exact spacedOkB_append _ t false (ht ▸ spacedOkB_dropWhile l h)

-- ── C8 main theorem ─────────────────────────────────────────────────────────

/-- C8 — FTS query sanitization is idempotent: applying
`sanitizeFtsQuery` a second time leaves the first result unchanged, for
every string. -/
theorem sanitizeFtsQuery_idempotent (q : List Char) :
    sanitizeFtsQuery (sanitizeFtsQuery q) = sanitizeFtsQuery q := by
  set m : List Char := removeStandaloneStars (stripSpecials q) with hm
  set s : List Char := sanitizeFtsQuery q with hs
  have hs' : s = trimWs (collapseWs m) := rfl
  -- the sanitized string has no special characters
  have hnospec : ∀ c ∈ s, isSpecialFts c = false := by
    intro c hc
    rw [hs'] at hc
    have h1 := trimWs_mem _ c hc
    exact collapseGo_noSpecial m false
      (removeStarsGo_noSpecial (stripSpecials q) none
        (stripSpecials_noSpecial q)) c h1
  -- every star in the sanitized string follows a word character
  have hstars : starsOkB false s = true := by
    rw [hs']
    refine trimWs_starsOk _ ?_
    refine collapseGo_starsOk m false false ?_ (by intro h; cases h)
    have := removeStarsGo_starsOk (stripSpecials q) none
    simpa [isWordOpt] using this
  -- whitespace in the sanitized string is single spaces
  have hspaced : spacedOkB false s = true := by
    rw [hs']
    exact trimWs_spacedOk _ (collapseGo_spacedOk m false)
  -- the sanitized string is trimmed on both ends
  have hhead : headNonWs s = true := hs' ▸ trimWs_headNonWs _
  have hlast : headNonWs s.reverse = true := hs' ▸ trimWs_reverse_headNonWs _
  -- the second application is the identity, stage by stage
  show trimWs (collapseWs (removeStandaloneStars (stripSpecials s))) = s
  rw [stripSpecials_id s hnospec]
  rw [show removeStandaloneStars s = s from
    removeStarsGo_id s none (by simpa [isWordOpt] using hstars)]
  rw [show collapseWs s = s from collapseGo_id s false hspaced]
  exact trimWs_id s hhead hlast

/-- A concrete evaluation of the sanitizer (matching the repository's
`fts.test.ts` expectations): specials removed, the trailing prefix star
kept, the standalone star removed, spaces collapsed and trimmed. -/
theorem sanitizeFtsQuery_example :
    sanitizeFtsQuery "auth* (token):  valid*".toList =
      "auth* token valid*".toList ∧
    sanitizeFtsQuery " * hello".toList = "hello".toList := by
  constructor
  · decide
  · decide

end Kontext
